import Mathlib

/-!
# Fake Jira client: JQL parsing and search

A shallow embedding of `prow/jira/fakejira/fake.go`: the miniature JQL parser
(`trimQuotes`, `SplitJQLQuery`, `ParseJQL`), the list membership test
`jqlContains` and the filtering and pagination of `FakeClient.SearchWithContext`.

Conventions of the embedding.

* A Go `string` is the list of its bytes, each byte a `Nat`; `len`, indexing,
  slicing, `strings.Index` and `strings.Split` work on bytes, as in Go.  The
  literal `bytes "..."` is the UTF-8 encoding of the text.
* A Go run-time panic (slice bounds out of range, index out of range, nil
  pointer dereference) is the value `none` of `Option`.
* Go `int` values are `Int`; slice lengths and indices that are never negative
  are `Nat`.
-/

namespace FakeJira

/-- A Go string, as its sequence of bytes. -/
abbrev GoString := List Nat

/-- The Go string literal with the given text: its UTF-8 encoding. -/
def bytes (s : String) : GoString :=
  (s.toList.flatMap String.utf8EncodeChar).map UInt8.toNat

/-- The byte of the double quote character. -/
def dquote : Nat := 34

/-- The byte of the single quote character. -/
def squote : Nat := 39

/-! ## Go primitives used by the code -/

/-- Go slice expression `s[lo:hi]`: panics unless `lo ≤ hi ≤ len(s)`. -/
def goSlice {α : Type} (s : List α) (lo hi : Nat) : Option (List α) :=
  if lo ≤ hi ∧ hi ≤ s.length then some ((s.take hi).drop lo) else none

/-- Go `strings.Index(s, substr)`: the index of the leftmost occurrence of
`substr` in `s`; `none` stands for the result `-1`. -/
def stringsIndex (s substr : GoString) : Option Nat :=
  match s with
  | [] => if substr.isPrefixOf [] then some 0 else none
  | c :: cs =>
    if substr.isPrefixOf (c :: cs) then some 0
    else (stringsIndex cs substr).map (fun i => i + 1)

/-- Go `strings.Split(s, sep)` for a one-byte separator, the only way the
code calls it (`"&"` and `","`): the pieces of `s` between the occurrences of
`sep`; the result is never empty. -/
def stringsSplit (s : GoString) (sep : Nat) : List GoString :=
  match s with
  | [] => [[]]
  | c :: cs =>
    if c = sep then [] :: stringsSplit cs sep
    else
      match stringsSplit cs sep with
      | [] => [[c]]
      | piece :: pieces => (c :: piece) :: pieces

/-- The code points for which Go `unicode.IsSpace` holds: the Latin-1 spaces
`\t \n \v \f \r`, space, U+0085, U+00A0, and the other code points of the
Unicode `White_Space` property. -/
def spaceRunes : List Nat :=
  [0x09, 0x0A, 0x0B, 0x0C, 0x0D, 0x20, 0x85, 0xA0, 0x1680] ++
  (List.range 11).map (fun k => 0x2000 + k) ++
  [0x2028, 0x2029, 0x202F, 0x205F, 0x3000]

/-- The UTF-8 encodings of the code points of `spaceRunes`. -/
def spaceEncodings : List GoString :=
  spaceRunes.map (fun r => (String.utf8EncodeChar (Char.ofNat r)).map UInt8.toNat)

/-- Go `strings.TrimLeftFunc(s, unicode.IsSpace)`: drop the encoded spaces at
the start of `s`, one per unit of `fuel`. -/
def trimLeftSpace : Nat → GoString → GoString
  | 0, s => s
  | fuel + 1, s =>
    match spaceEncodings.find? (fun e => e.isPrefixOf s) with
    | some e => trimLeftSpace fuel (s.drop e.length)
    | none => s

/-- Go `strings.TrimRightFunc(s, unicode.IsSpace)`: drop the encoded spaces at
the end of `s`, one per unit of `fuel`. -/
def trimRightSpace : Nat → GoString → GoString
  | 0, s => s
  | fuel + 1, s =>
    match spaceEncodings.find? (fun e => e.isSuffixOf s) with
    | some e => trimRightSpace fuel (s.take (s.length - e.length))
    | none => s

/-- Go `strings.TrimSpace`: drop the leading and the trailing white space.  A
space takes at least one byte, so `len(s)` units of fuel are enough. -/
def stringsTrimSpace (s : GoString) : GoString :=
  trimRightSpace s.length (trimLeftSpace s.length s)

/-! ## Data model -/

/-- The struct `JqlQuery`: one parsed clause. -/
structure JqlQuery where
  Key : GoString
  Operator : GoString
  Value : GoString
  deriving DecidableEq, Repr

/-- The struct `JqlQueries`: the parsed clauses of a query, in order. -/
structure JqlQueries where
  Jql : List JqlQuery
  deriving DecidableEq, Repr

/-- The global `supportedJQLKeys`. -/
def supportedJQLKeys : List GoString :=
  [bytes "project", bytes "category", bytes "id", bytes "issueType", bytes "status"]

/-- The operator name `"equal"`. -/
def opEqual : GoString := bytes "equal"

/-- The operator name `"contains"`. -/
def opContains : GoString := bytes "contains"

/-- The global map `jqlOperators`, as its entries (operator name, token) in one
of the orders a `range` over the map may visit them. -/
def jqlOperators : List (GoString × GoString) :=
  [(opEqual, bytes "="), (opContains, bytes " IN ")]

/-- The two orders in which a `range` over the two-entry map `jqlOperators`
may visit its entries. -/
def jqlOperatorOrders : List (List (GoString × GoString)) :=
  [jqlOperators, jqlOperators.reverse]

/-- Map lookup `jqlOperators[name]`: the token of `name`, and the empty string
(the zero value) for a name that is not a key of the map. -/
def jqlOperatorsLookup (name : GoString) : GoString :=
  match jqlOperators.find? (fun entry => entry.1 == name) with
  | some entry => entry.2
  | none => []

/-! ## The parser -/

deriving instance DecidableEq for Except

/-- The function `contains(s []string, str string)`. -/
def contains : List GoString → GoString → Bool
  | [], _ => false
  | v :: rest, str => if v = str then true else contains rest str

/-- The function `trimQuotes`: when `s` has at least two bytes and its first
and last bytes are the same quote, the string without them. -/
def trimQuotes (s : GoString) : Option GoString :=
  if s.length ≥ 2 then do
    let c ← s[s.length - 1]?
    let c0 ← s[0]?
    if c0 = c ∧ (c = dquote ∨ c = squote) then goSlice s 1 (s.length - 1)
    else pure s
  else pure s

/-- One iteration of the loop of `SplitJQLQuery` over an entry
`(operatorName, operatorType)` of `jqlOperators`; the state is
`(min, name, i)`. -/
def splitLoopBody (s : GoString) (st : Nat × GoString × Nat)
    (entry : GoString × GoString) : Nat × GoString × Nat :=
  match stringsIndex s entry.2 with
  | none => st
  | some ind =>
    let st1 : Nat × GoString := if st.2.2 = 0 then (ind, entry.1) else (st.1, st.2.1)
    let st2 : Nat × GoString := if ind < st1.1 then (ind, entry.1) else st1
    (st2.1, st2.2, st.2.2 + 1)

/-- The text of the error of `SplitJQLQuery`. -/
def splitErrorText (s : GoString) : GoString :=
  (bytes "failed to split the jql string: ") ++ s

/-- The function `SplitJQLQuery`, with the order `ops` in which the `range`
loop visits the entries of `jqlOperators`.  The outer `Option` is `none` on a
panic, the `Except` is the returned `(JqlQuery, error)`. -/
def SplitJQLQueryOrd (ops : List (GoString × GoString)) (s : GoString) :
    Option (Except GoString JqlQuery) :=
  let st := ops.foldl (splitLoopBody s) (0, [], 0)
  let min := st.1
  let name := st.2.1
  do
    let key ← goSlice s 0 min
    if contains supportedJQLKeys key then
      let rest ← goSlice s (min + (jqlOperatorsLookup name).length) s.length
      let value ← trimQuotes rest
      pure (Except.ok ⟨key, name, value⟩)
    else
      pure (Except.error (splitErrorText s))

/-- The function `SplitJQLQuery` for the visiting order `jqlOperators`; by
`SplitJQLQueryOrd_order` below the other order gives the same result. -/
def SplitJQLQuery (s : GoString) : Option (Except GoString JqlQuery) :=
  SplitJQLQueryOrd jqlOperators s

/-- One iteration of the loop of `ParseJQL`: a clause that parses is appended,
one that does not is skipped. -/
def parseLoopBody (query : JqlQueries) (part : GoString) : Option JqlQueries := do
  let r ← SplitJQLQuery part
  match r with
  | Except.ok jql => pure ⟨query.Jql ++ [jql]⟩
  | Except.error _ => pure query

/-- The function `ParseJQL`; `none` on a panic. -/
def ParseJQL (jql : GoString) : Option JqlQueries :=
  (stringsSplit jql '&'.toNat).foldlM parseLoopBody ⟨[]⟩

/-! ## Issues, search options and results -/

/-- A Go `error` value, as far as the code tells errors apart: an error built
by `jiraclient.NewNotFoundError` or any other error, each with its text. -/
inductive GoError where
  | notFound (text : GoString)
  | other (text : GoString)
  deriving DecidableEq, Repr

/-- Whether an error is a NotFound error. -/
def GoError.isNotFound : GoError → Bool
  | GoError.notFound _ => true
  | GoError.other _ => false

/-- The struct `jira.ProjectCategory`, the field read by the code. -/
structure ProjectCategory where
  Name : GoString
  deriving DecidableEq, Repr

/-- The struct `jira.Project`, the fields read by the code. -/
structure Project where
  Name : GoString
  ProjectCategory : ProjectCategory
  deriving DecidableEq, Repr

/-- The struct `jira.IssueType`, the field read by the code. -/
structure IssueType where
  Name : GoString
  deriving DecidableEq, Repr

/-- The struct `jira.Status`, the field read by the code. -/
structure Status where
  Name : GoString
  deriving DecidableEq, Repr

/-- The struct `jira.IssueFields`, the fields read by the code.  In go-jira
`Type` and `Project` are struct values and `Status` is a pointer, here an
`Option` whose `none` is the nil pointer. -/
structure IssueFields where
  Type_ : IssueType
  Project : Project
  Status : Option Status
  deriving DecidableEq, Repr

/-- The struct `jira.Issue`, the fields read by the code; `Fields` is a
pointer, `none` is nil. -/
structure Issue where
  ID : GoString
  Key : GoString
  Fields : Option IssueFields
  deriving DecidableEq, Repr

/-- The struct `jira.SearchOptions`, the fields read by the code. -/
structure SearchOptions where
  StartAt : Int
  MaxResults : Int
  deriving DecidableEq, Repr

/-- The struct `jira.Response`, the fields set by the code. -/
structure Response where
  StartAt : Int
  MaxResults : Int
  Total : Int
  deriving DecidableEq, Repr

/-- The struct `FakeClient`, the fields read by the search. -/
structure FakeClient where
  GetIssueError : Option GoError
  IssueSearch : List Issue
  deriving DecidableEq, Repr

/-- The three values returned by `Search`: the items (`none` is the nil
slice), the response (`none` is nil) and the error (`none` is nil). -/
structure SearchReturn where
  items : Option (List Issue)
  response : Option Response
  err : Option GoError
  deriving DecidableEq, Repr

/-! ## The evaluator -/

/-- The function `jqlContains`; `none` on a panic of one of its slice
expressions. -/
def jqlContains (s str : GoString) : Option Bool := do
  let first ← goSlice s 0 1
  let malformed ←
    if first ≠ (bytes "(") then do
      let last ← goSlice s (s.length - 1) s.length
      pure (decide (last ≠ (bytes ")")))
    else pure false
  if malformed then pure false
  else do
    let body ← goSlice s 1 (s.length - 1)
    pure ((stringsSplit body ','.toNat).any
      (fun v => decide (stringsTrimSpace v = stringsTrimSpace str)))

/-- The two `if` statements of one `case` of the `switch` of the search, for a
field other than `id`: `field` is the projected field of the issue, `none`
when reading it dereferences a nil pointer. -/
def filterOnField (filter : JqlQuery) (issueList : List Issue) (existingIssue : Issue)
    (field : Option GoString) : Option (List Issue) := do
  let issueList ←
    if filter.Operator = opEqual then do
      let name ← field
      pure (if name = filter.Value then issueList ++ [existingIssue] else issueList)
    else pure issueList
  if filter.Operator = opContains then do
    let name ← field
    let found ← jqlContains filter.Value name
    pure (if found then issueList ++ [existingIssue] else issueList)
  else pure issueList

/-- The `case filter.Key == "id"` of the `switch` of the search. -/
def filterOnId (filter : JqlQuery) (issueList : List Issue) (existingIssue : Issue) :
    Option (List Issue) := do
  let issueList :=
    if filter.Operator = opEqual then
      (if existingIssue.ID = filter.Value ∨ existingIssue.Key = filter.Value
        then issueList ++ [existingIssue] else issueList)
    else issueList
  if filter.Operator = opContains then do
    let byID ← jqlContains filter.Value existingIssue.ID
    let found ← if byID then pure true else jqlContains filter.Value existingIssue.Key
    pure (if found then issueList ++ [existingIssue] else issueList)
  else pure issueList

/-- The body of the inner loop of the search: the `switch` on `filter.Key`,
which appends `existingIssue` to `issueList` when it matches `filter`. -/
def filterIssue (filter : JqlQuery) (issueList : List Issue) (existingIssue : Issue) :
    Option (List Issue) :=
  if filter.Key = (bytes "id") then
    filterOnId filter issueList existingIssue
  else if filter.Key = (bytes "project") then
    filterOnField filter issueList existingIssue
      (existingIssue.Fields.map (fun fields => fields.Project.Name))
  else if filter.Key = (bytes "category") then
    filterOnField filter issueList existingIssue
      (existingIssue.Fields.map (fun fields => fields.Project.ProjectCategory.Name))
  else if filter.Key = (bytes "issueType") then
    filterOnField filter issueList existingIssue
      (existingIssue.Fields.map (fun fields => fields.Type_.Name))
  else if filter.Key = (bytes "status") then
    filterOnField filter issueList existingIssue
      ((existingIssue.Fields.bind (fun fields => fields.Status)).map (fun status => status.Name))
  else pure issueList

/-- The body of the outer loop of the search for one `filter`: choose the list
to scan (the corpus when `issueList` is empty, else `issueList`, which is then
reset) and scan it. -/
def filterLoopBody (corpus : List Issue) (issueList : List Issue) (filter : JqlQuery) :
    Option (List Issue) :=
  if issueList.length = 0 then
    corpus.foldlM (filterIssue filter) issueList
  else
    issueList.foldlM (filterIssue filter) []

/-- The outer loop of the search over the parsed filters, from the initial
(nil) `issueList`: the candidate set left after the last predicate. -/
def filterLoop (corpus : List Issue) (filters : List JqlQuery) : Option (List Issue) :=
  filters.foldlM (filterLoopBody corpus) []

/-- The text of the NotFound error of the search. -/
def notFoundText (jql : GoString) : GoString :=
  (bytes "no issue found with the jql query: ") ++ jql

/-- Go slice expression `s[0:hi]` for an `int` bound: panics when `hi` is
negative or exceeds the length. -/
def goSliceTo {α : Type} (s : List α) (hi : Int) : Option (List α) :=
  if 0 ≤ hi then goSlice s 0 hi.toNat else none

/-- The method `FakeClient.SearchWithContext` (the context is ignored), called
with a non-nil `options`.  The result is `none` on a panic, else the three
returned values and the final content of `*options`. -/
def SearchWithContext (f : FakeClient) (jql : GoString) (options : SearchOptions) :
    Option (SearchReturn × SearchOptions) :=
  match f.GetIssueError with
  | some e => some (⟨none, none, some e⟩, options)
  | none => do
    let filters ← ParseJQL jql
    let issueList ← filterLoop f.IssueSearch filters.Jql
    if issueList.length = 0 then
      pure (⟨none, none, some (GoError.notFound (notFoundText jql))⟩, options)
    else
      let options : SearchOptions :=
        if options.MaxResults = 0 then ⟨options.StartAt, 50⟩ else options
      let limit : Int :=
        if (issueList.length : Int) < options.MaxResults then (issueList.length : Int)
        else options.MaxResults
      let items ← goSliceTo issueList limit
      pure (⟨some items,
        some ⟨options.StartAt, options.MaxResults, (issueList.length : Int)⟩, none⟩, options)

/-- The method `FakeClient.Search`. -/
def Search (f : FakeClient) (jql : GoString) (options : SearchOptions) :
    Option (SearchReturn × SearchOptions) :=
  SearchWithContext f jql options

/-- An issue of the test corpus: an id and a project name. -/
def testIssue (id project : String) : Issue :=
  ⟨bytes id, [], some ⟨⟨[]⟩, ⟨bytes project, ⟨[]⟩⟩, none⟩⟩

/-- The corpus of `TestClient_Search`. -/
def testIssueList : List Issue :=
  [testIssue "123" "Test1", testIssue "1234" "Test2", testIssue "12345" "Test3"]

/-- The client of `TestClient_Search`. -/
def testClient : FakeClient := ⟨none, testIssueList⟩

/-- The clauses of the third query of `TestClient_ParseJQL`. -/
def testClauses : List GoString :=
  [bytes "project='Openshift Continuous Release'", bytes "id IN (123,321,124)"]

/-- The predicates the clauses `testClauses` parse to. -/
def testPredicates : List JqlQuery :=
  [⟨bytes "project", opEqual, bytes "Openshift Continuous Release"⟩,
    ⟨bytes "id", opContains, bytes "(123,321,124)"⟩]

/-- An operator token (`=` or ` IN `) occurs in `s` at index `i`. -/
def operatorAt (s : GoString) (i : Nat) : Bool :=
  (bytes "=").isPrefixOf (s.drop i) || (bytes " IN ").isPrefixOf (s.drop i)

/-- The candidate set left after the last predicate of the query `jql`:
the value of `issueList` when the outer loop of the search ends. -/
def finalCandidates (f : FakeClient) (jql : GoString) : Option (List Issue) := do
  let filters ← ParseJQL jql
  filterLoop f.IssueSearch filters.Jql

/-- The predicate a clause parses to, if it parses. -/
def parsedClause (part : GoString) : Option JqlQuery :=
  match SplitJQLQuery part with
  | some (Except.ok jql) => some jql
  | _ => none

/-- The predicates of the clauses that parse, in order. -/
def parsedClauses (parts : List GoString) : List JqlQuery :=
  parts.filterMap parsedClause

/-- The record `existingIssue` satisfies the predicate `filter`: the body of
the inner loop of the search carries it into the next candidate set. -/
def satisfies (filter : JqlQuery) (existingIssue : Issue) : Bool :=
  filterIssue filter [] existingIssue == some [existingIssue]

/-- The effective window size of the search: 50 when the request says 0. -/
def effectiveMax (options : SearchOptions) : Int :=
  if options.MaxResults = 0 then 50 else options.MaxResults

/-- Whether the body of the inner loop of the search appends `existingIssue`
for the predicate `filter`; `none` when it panics. -/
def matchIssue (filter : JqlQuery) (existingIssue : Issue) : Option Bool :=
  (filterIssue filter [] existingIssue).map (fun l => !l.isEmpty)

/-- The projected field of a record for a field name other than `id`: the
project name, the project-category name, the issue-type name or the status
name; `none` when the record has no such field (a nil pointer on the way) or
the name is not one of the four. -/
def projectedName (key : GoString) (e : Issue) : Option GoString :=
  if key = bytes "project" then e.Fields.map (fun fields => fields.Project.Name)
  else if key = bytes "category" then
    e.Fields.map (fun fields => fields.Project.ProjectCategory.Name)
  else if key = bytes "issueType" then e.Fields.map (fun fields => fields.Type_.Name)
  else if key = bytes "status" then
    (e.Fields.bind (fun fields => fields.Status)).map (fun status => status.Name)
  else none

/-- A search result with the text of its error erased: the items, the
response, whether there is an error and whether it is a NotFound error, and
the final options. -/
def outcome (res : Option (SearchReturn × SearchOptions)) :
    Option (Option (List Issue) × Option Response × Option Bool × SearchOptions) :=
  res.map (fun ro => (ro.1.items, ro.1.response, ro.1.err.map GoError.isNotFound, ro.2))

/-- The candidate set of the spec (section 4.2) left after the last predicate:
initialised to the full corpus, and for each predicate in turn replaced by its
records that match the predicate. -/
def specCandidates (corpus : List Issue) (predicates : List JqlQuery) : List Issue :=
  predicates.foldl (fun current p => current.filter (satisfies p)) corpus

/-- A search result with `StartAt` replaced, in the response (when there is
one) and in the final options. -/
def withStartAt (startAt : Int) (ro : SearchReturn × SearchOptions) :
    SearchReturn × SearchOptions :=
  (⟨ro.1.items, ro.1.response.map (fun resp => ⟨startAt, resp.MaxResults, resp.Total⟩),
    ro.1.err⟩, ⟨startAt, ro.2.MaxResults⟩)

/-- A record with an id and a key and no fields. -/
def keyedIssue (id key : String) : Issue := ⟨bytes id, bytes key, none⟩

/-- A client whose corpus is two records with a key. -/
def keyedClient : FakeClient :=
  ⟨none, [keyedIssue "123" "PROJ-1", keyedIssue "7" "PROJ-2"]⟩

/-- The outcome of the search as a function of the candidate set left after
the last predicate (`none` when the loop panicked) and of the options: a
panic, NotFound for an empty set, and for a non-empty set the window of the
set, or a panic when the window is negative. -/
def outcomeOf (candidates : Option (List Issue)) (options : SearchOptions) :
    Option (Option (List Issue) × Option Response × Option Bool × SearchOptions) :=
  match candidates with
  | none => none
  | some l =>
    if l = [] then some (none, none, some true, options)
    else if 0 ≤ options.MaxResults then
      some (some (l.take (effectiveMax options).toNat),
        some ⟨options.StartAt, effectiveMax options, (l.length : Int)⟩, none,
        ⟨options.StartAt, effectiveMax options⟩)
    else none

/-! ## Lemmas on the Go primitives -/

theorem bytes_equal : bytes "=" = [61] := by decide

theorem bytes_IN : bytes " IN " = [32, 73, 78, 32] := by decide

theorem bytes_amp : bytes "&" = [38] := by decide

theorem bytes_lparen : bytes "(" = [40] := by decide

theorem bytes_rparen : bytes ")" = [41] := by decide

theorem amp_toNat : '&'.toNat = 38 := by decide

theorem contains_iff (l : List GoString) (str : GoString) :
    contains l str = true ↔ str ∈ l := by
  induction l with
  | nil => simp [contains]
  | cons v rest ih =>
    by_cases h : v = str
    · simp [contains, h]
    · have h2 : ¬ str = v := fun e => h e.symm
      simp [contains, h, h2, ih]

theorem goSlice_zero {α : Type} (s : List α) (hi : Nat) (h : hi ≤ s.length) :
    goSlice s 0 hi = some (s.take hi) := by
  simp [goSlice, h]

theorem goSlice_to_end {α : Type} (s : List α) (lo : Nat) (h : lo ≤ s.length) :
    goSlice s lo s.length = some (s.drop lo) := by
  simp [goSlice, h]

theorem stringsIndex_some (t : GoString) : ∀ (s : GoString) (i : Nat),
    stringsIndex s t = some i →
      t.isPrefixOf (s.drop i) = true ∧ i ≤ s.length ∧
        ∀ j, j < i → t.isPrefixOf (s.drop j) = false := by
  intro s
  induction s with
  | nil =>
    intro i h
    simp only [stringsIndex] at h
    split at h
    · cases h
      rename_i hp
      exact ⟨by simpa using hp, by simp, by intro j hj; omega⟩
    · cases h
  | cons c cs ih =>
    intro i h
    simp only [stringsIndex] at h
    split at h
    · cases h
      rename_i hp
      exact ⟨by simpa using hp, by simp, by intro j hj; omega⟩
    · rename_i hp
      cases hcs : stringsIndex cs t with
      | none => simp [hcs] at h
      | some k =>
        simp [hcs] at h
        subst h
        obtain ⟨h1, h2, h3⟩ := ih k hcs
        refine ⟨by simpa using h1, by simp; omega, ?_⟩
        intro j hj
        cases j with
        | zero => exact Bool.eq_false_of_not_eq_true hp
        | succ j => simpa using h3 j (by omega)

theorem stringsIndex_none (t : GoString) (ht : t ≠ []) : ∀ (s : GoString),
    stringsIndex s t = none → ∀ j, t.isPrefixOf (s.drop j) = false := by
  intro s
  induction s with
  | nil =>
    intro _ j
    cases t with
    | nil => exact absurd rfl ht
    | cons a t => simp [List.isPrefixOf]
  | cons c cs ih =>
    intro h j
    simp only [stringsIndex] at h
    split at h
    · cases h
    · rename_i hp
      cases hcs : stringsIndex cs t with
      | some k => simp [hcs] at h
      | none =>
        cases j with
        | zero => exact Bool.eq_false_of_not_eq_true hp
        | succ j => simpa using ih hcs j

theorem trimQuotes_quoted (q : Nat) (m : GoString) (hq : q = dquote ∨ q = squote) :
    trimQuotes (q :: (m ++ [q])) = some m := by
  have hlen : (q :: (m ++ [q])).length = m.length + 2 := by simp
  have h1 : (q :: (m ++ [q]))[m.length + 2 - 1]? = some q := by
    simp [List.getElem?_cons_succ, List.getElem?_append_right]
  simp only [trimQuotes, hlen]
  simp [h1, hq, goSlice]

theorem trimQuotes_unquoted (v : GoString)
    (h : ¬ ∃ q m, (q = dquote ∨ q = squote) ∧ v = q :: (m ++ [q])) :
    trimQuotes v = some v := by
  cases v with
  | nil => simp [trimQuotes]
  | cons a w =>
    rcases List.eq_nil_or_concat w with rfl | ⟨mid, b, hw⟩
    · simp [trimQuotes]
    · rw [List.concat_eq_append] at hw
      subst hw
      have hlen : (a :: (mid ++ [b])).length = mid.length + 2 := by simp
      have h1 : (a :: (mid ++ [b]))[mid.length + 2 - 1]? = some b := by
        simp [List.getElem?_cons_succ, List.getElem?_append_right]
      have hc : ¬ (a = b ∧ (b = dquote ∨ b = squote)) := by
        rintro ⟨rfl, hq⟩
        exact h ⟨a, mid, hq, rfl⟩
      simp only [trimQuotes, hlen]
      simp [h1, hc]

theorem trimQuotes_total (v : GoString) : ∃ r, trimQuotes v = some r := by
  by_cases h : ∃ q m, (q = dquote ∨ q = squote) ∧ v = q :: (m ++ [q])
  · obtain ⟨q, m, hq, rfl⟩ := h
    exact ⟨m, trimQuotes_quoted q m hq⟩
  · exact ⟨v, trimQuotes_unquoted v h⟩

theorem operatorAt_false_iff (s : GoString) (j : Nat) :
    operatorAt s j = false ↔
      (bytes "=").isPrefixOf (s.drop j) = false ∧ (bytes " IN ").isPrefixOf (s.drop j) = false := by
  simp only [operatorAt, Bool.or_eq_false_iff]

theorem splitLoop_state (s : GoString) :
    jqlOperators.foldl (splitLoopBody s) (0, [], 0) =
      match stringsIndex s (bytes "="), stringsIndex s (bytes " IN ") with
      | none, none => (0, [], 0)
      | some a, none => (a, opEqual, 1)
      | none, some b => (b, opContains, 1)
      | some a, some b => if b < a then (b, opContains, 2) else (a, opEqual, 2) := by
  simp only [jqlOperators, List.foldl, splitLoopBody]
  cases stringsIndex s (bytes "=") <;> cases stringsIndex s (bytes " IN ") <;> simp
  split_ifs <;> simp

theorem splitLoop_state_reverse (s : GoString) :
    jqlOperators.reverse.foldl (splitLoopBody s) (0, [], 0) =
      match stringsIndex s (bytes "="), stringsIndex s (bytes " IN ") with
      | none, none => (0, [], 0)
      | some a, none => (a, opEqual, 1)
      | none, some b => (b, opContains, 1)
      | some a, some b => if a < b then (a, opEqual, 2) else (b, opContains, 2) := by
  simp only [jqlOperators, List.reverse_cons, List.reverse_nil, List.nil_append,
    List.singleton_append, List.foldl, splitLoopBody]
  cases stringsIndex s (bytes "=") <;> cases stringsIndex s (bytes " IN ") <;> simp
  split_ifs <;> simp

/-- The two operator tokens start with different characters, so they never
occur at the same index. -/
theorem tokens_disjoint (l : GoString) (h : (bytes "=").isPrefixOf l = true) :
    (bytes " IN ").isPrefixOf l = false := by
  cases l with
  | nil => rfl
  | cons c rest =>
    have hc : c = 61 := by
      have h2 : (61 == c) = true := by
        have h3 : ((61 == c) && List.isPrefixOf [] rest) = true := h
        simpa using h3
      exact (beq_iff_eq.mp h2).symm
    subst hc
    rfl

/-- The loop of `SplitJQLQuery` ends with the same `min` and `name` whichever
order the map iteration takes. -/
theorem splitLoop_order (ops : List (GoString × GoString)) (hops : ops ∈ jqlOperatorOrders)
    (s : GoString) :
    (ops.foldl (splitLoopBody s) (0, [], 0)).1 =
        (jqlOperators.foldl (splitLoopBody s) (0, [], 0)).1 ∧
      (ops.foldl (splitLoopBody s) (0, [], 0)).2.1 =
        (jqlOperators.foldl (splitLoopBody s) (0, [], 0)).2.1 := by
  simp only [jqlOperatorOrders, List.mem_cons, List.mem_singleton, List.not_mem_nil,
    or_false] at hops
  rcases hops with rfl | rfl
  · exact ⟨rfl, rfl⟩
  · rw [splitLoop_state_reverse, splitLoop_state]
    cases hi : stringsIndex s (bytes "=") with
    | none => cases hj : stringsIndex s (bytes " IN ") <;> exact ⟨rfl, rfl⟩
    | some a =>
      cases hj : stringsIndex s (bytes " IN ") with
      | none => exact ⟨rfl, rfl⟩
      | some b =>
        have hab : a ≠ b := by
          rintro rfl
          have h1 := (stringsIndex_some _ s a hi).1
          have h2 := (stringsIndex_some _ s a hj).1
          rw [tokens_disjoint _ h1] at h2
          cases h2
        by_cases h : a < b
        · have h2 : ¬ b < a := by omega
          simp only [h, h2, if_true, if_false, and_self]
        · have h2 : b < a := by omega
          simp only [h, h2, if_true, if_false, and_self]

theorem SplitJQLQueryOrd_order (ops : List (GoString × GoString))
    (hops : ops ∈ jqlOperatorOrders) (s : GoString) :
    SplitJQLQueryOrd ops s = SplitJQLQuery s := by
  obtain ⟨h1, h2⟩ := splitLoop_order ops hops s
  simp only [SplitJQLQuery, SplitJQLQueryOrd, h1, h2]

theorem isPrefixOf_length_le (t l : GoString) (h : t.isPrefixOf l = true) :
    t.length ≤ l.length :=
  (List.isPrefixOf_iff_prefix.mp h).length_le

theorem jqlOperatorsLookup_of_mem (entry : GoString × GoString) (h : entry ∈ jqlOperators) :
    jqlOperatorsLookup entry.1 = entry.2 := by
  simp only [jqlOperators, List.mem_cons, List.mem_singleton, List.not_mem_nil, or_false] at h
  rcases h with rfl | rfl <;> rfl

theorem SplitJQLQuery_of_state (s : GoString) (i : Nat) (entry : GoString × GoString)
    (hmem : entry ∈ jqlOperators) (hp : entry.2.isPrefixOf (s.drop i) = true)
    (hi : i ≤ s.length)
    (h1 : (jqlOperators.foldl (splitLoopBody s) (0, [], 0)).1 = i)
    (h2 : (jqlOperators.foldl (splitLoopBody s) (0, [], 0)).2.1 = entry.1) :
    (s.take i ∈ supportedJQLKeys ∧ ∃ v, trimQuotes (s.drop (i + entry.2.length)) = some v ∧
        SplitJQLQuery s = some (Except.ok ⟨s.take i, entry.1, v⟩)) ∨
      (s.take i ∉ supportedJQLKeys ∧
        SplitJQLQuery s = some (Except.error (splitErrorText s))) := by
  have hlen : i + entry.2.length ≤ s.length := by
    have := isPrefixOf_length_le _ _ hp
    simp only [List.length_drop] at this
    omega
  simp only [SplitJQLQuery, SplitJQLQueryOrd, h1, h2, goSlice_zero s i hi,
    jqlOperatorsLookup_of_mem entry hmem, goSlice_to_end s _ hlen]
  by_cases hk : s.take i ∈ supportedJQLKeys
  · left
    obtain ⟨v, hv⟩ := trimQuotes_total (s.drop (i + entry.2.length))
    refine ⟨hk, v, hv, ?_⟩
    have hc := (contains_iff supportedJQLKeys (s.take i)).mpr hk
    simp [hc, hv]
  · right
    refine ⟨hk, ?_⟩
    have hc : contains supportedJQLKeys (s.take i) = false := by
      rw [← Bool.not_eq_true, contains_iff]
      exact hk
    simp [hc]

theorem SplitJQLQuery_cases (s : GoString) :
    ((∀ j, operatorAt s j = false) ∧
        SplitJQLQuery s = some (Except.error (splitErrorText s))) ∨
      (∃ i entry, entry ∈ jqlOperators ∧ entry.2.isPrefixOf (s.drop i) = true ∧
        i ≤ s.length ∧ (∀ j, j < i → operatorAt s j = false) ∧
        ((s.take i ∈ supportedJQLKeys ∧
            ∃ v, trimQuotes (s.drop (i + entry.2.length)) = some v ∧
              SplitJQLQuery s = some (Except.ok ⟨s.take i, entry.1, v⟩)) ∨
          (s.take i ∉ supportedJQLKeys ∧
            SplitJQLQuery s = some (Except.error (splitErrorText s))))) := by
  have hne1 : (bytes "=") ≠ [] := by decide
  have hne2 : (bytes " IN ") ≠ [] := by decide
  have hmem1 : (opEqual, bytes "=") ∈ jqlOperators := by decide
  have hmem2 : (opContains, bytes " IN ") ∈ jqlOperators := by decide
  have hst := splitLoop_state s
  cases hi : stringsIndex s (bytes "=") with
  | none =>
    cases hj : stringsIndex s (bytes " IN ") with
    | none =>
      left
      rw [hi, hj] at hst
      refine ⟨?_, ?_⟩
      · intro j
        rw [operatorAt_false_iff]
        exact ⟨stringsIndex_none _ hne1 s hi j, stringsIndex_none _ hne2 s hj j⟩
      · have hc : contains supportedJQLKeys [] = false := by decide
        simp only [SplitJQLQuery, SplitJQLQueryOrd, hst]
        simp [goSlice, hc]
    | some b =>
      right
      rw [hi, hj] at hst
      obtain ⟨p1, p2, p3⟩ := stringsIndex_some _ s b hj
      refine ⟨b, _, hmem2, p1, p2, ?_, ?_⟩
      · intro j hjb
        rw [operatorAt_false_iff]
        exact ⟨stringsIndex_none _ hne1 s hi j, p3 j hjb⟩
      · exact SplitJQLQuery_of_state s b _ hmem2 p1 p2 (by rw [hst]) (by rw [hst])
  | some a =>
    obtain ⟨q1, q2, q3⟩ := stringsIndex_some _ s a hi
    cases hj : stringsIndex s (bytes " IN ") with
    | none =>
      right
      rw [hi, hj] at hst
      refine ⟨a, _, hmem1, q1, q2, ?_, ?_⟩
      · intro j hja
        rw [operatorAt_false_iff]
        exact ⟨q3 j hja, stringsIndex_none _ hne2 s hj j⟩
      · exact SplitJQLQuery_of_state s a _ hmem1 q1 q2 (by rw [hst]) (by rw [hst])
    | some b =>
      right
      rw [hi, hj] at hst
      obtain ⟨p1, p2, p3⟩ := stringsIndex_some _ s b hj
      by_cases hba : b < a
      · simp only [hba, if_true] at hst
        refine ⟨b, _, hmem2, p1, p2, ?_, ?_⟩
        · intro j hjb
          rw [operatorAt_false_iff]
          exact ⟨q3 j (by omega), p3 j hjb⟩
        · exact SplitJQLQuery_of_state s b _ hmem2 p1 p2 (by rw [hst]) (by rw [hst])
      · simp only [hba, if_false] at hst
        refine ⟨a, _, hmem1, q1, q2, ?_, ?_⟩
        · intro j hja
          rw [operatorAt_false_iff]
          exact ⟨q3 j hja, p3 j (by omega)⟩
        · exact SplitJQLQuery_of_state s a _ hmem1 q1 q2 (by rw [hst]) (by rw [hst])

theorem stringsIndex_skip (x : Nat) (t : GoString) (r : GoString) :
    ∀ f : GoString, x ∉ f →
      stringsIndex (f ++ r) (x :: t) = (stringsIndex r (x :: t)).map (fun i => i + f.length) := by
  intro f
  induction f with
  | nil => intro _; simp
  | cons c f ih =>
    intro hx
    have hxc : ¬ x = c := fun e => hx (by simp [e])
    have hxf : x ∉ f := fun e => hx (by simp [e])
    have hp : (x :: t).isPrefixOf (c :: (f ++ r)) = false := by
      simp [List.isPrefixOf, hxc]
    have hstep : stringsIndex (c :: (f ++ r)) (x :: t) =
        (stringsIndex (f ++ r) (x :: t)).map (fun i => i + 1) := by
      simp only [stringsIndex, hp, Bool.false_eq_true, if_false]
    rw [List.cons_append, hstep, ih hxf]
    cases stringsIndex r (x :: t) with
    | none => rfl
    | some k => simp [Nat.add_assoc]

theorem supportedJQLKeys_chars : ∀ f ∈ supportedJQLKeys, 61 ∉ f ∧ 32 ∉ f ∧ '&'.toNat ∉ f := by
  decide

theorem stringsSplit_of_not_mem (sep : Nat) : ∀ s : GoString, sep ∉ s →
    stringsSplit s sep = [s] := by
  intro s
  induction s with
  | nil => intro _; rfl
  | cons c cs ih =>
    intro h
    have hc : ¬ c = sep := fun e => h (by simp [e])
    have hcs : sep ∉ cs := fun e => h (by simp [e])
    simp [stringsSplit, hc, ih hcs]

theorem stringsSplit_ne_nil (sep : Nat) : ∀ s : GoString, stringsSplit s sep ≠ [] := by
  intro s
  induction s with
  | nil => simp [stringsSplit]
  | cons c cs ih =>
    simp only [stringsSplit]
    split_ifs
    · simp
    · split <;> simp

theorem stringsSplit_append (sep : Nat) (b : GoString) : ∀ a : GoString,
    stringsSplit (a ++ sep :: b) sep = stringsSplit a sep ++ stringsSplit b sep := by
  intro a
  induction a with
  | nil => simp [stringsSplit]
  | cons c cs ih =>
    rw [List.cons_append]
    simp only [stringsSplit]
    split_ifs
    · simp [ih]
    · cases h : stringsSplit cs sep with
      | nil => exact absurd h (stringsSplit_ne_nil sep cs)
      | cons piece pieces => rw [ih, h]; simp

theorem SplitJQLQuery_total (s : GoString) : ∃ r, SplitJQLQuery s = some r := by
  rcases SplitJQLQuery_cases s with ⟨_, h⟩ | ⟨i, entry, _, _, _, _, ⟨_, v, _, h⟩ | ⟨_, h⟩⟩
  · exact ⟨_, h⟩
  · exact ⟨_, h⟩
  · exact ⟨_, h⟩

theorem parseLoop_fold : ∀ (parts : List GoString) (acc : JqlQueries),
    parts.foldlM parseLoopBody acc = some ⟨acc.Jql ++ parsedClauses parts⟩ := by
  intro parts
  induction parts with
  | nil => intro acc; simp [parsedClauses]
  | cons p ps ih =>
    intro acc
    obtain ⟨r, hr⟩ := SplitJQLQuery_total p
    cases r with
    | ok q => simp [List.foldlM, parseLoopBody, hr, ih, parsedClauses, parsedClause]
    | error e => simp [List.foldlM, parseLoopBody, hr, ih, parsedClauses, parsedClause]

theorem ParseJQL_eq (jql : GoString) :
    ParseJQL jql = some ⟨parsedClauses (stringsSplit jql '&'.toNat)⟩ := by
  simp [ParseJQL, parseLoop_fold]

/-- The parse of an equality clause `f=v` with a whitelisted field. -/
theorem SplitJQLQuery_equal (f : GoString) (hf : f ∈ supportedJQLKeys) (v : GoString) :
    ∃ value, trimQuotes v = some value ∧
      SplitJQLQuery (f ++ (bytes "=") ++ v) = some (Except.ok ⟨f, opEqual, value⟩) := by
  obtain ⟨he, hs, _⟩ := supportedJQLKeys_chars f hf
  have hs1 : f ++ (bytes "=") ++ v = f ++ (61 :: v) := by simp [bytes_equal]
  have hE : stringsIndex (f ++ (61 :: v)) (bytes "=") = some f.length := by
    have h0 : stringsIndex (61 :: v) [61] = some 0 := by
      simp [stringsIndex, List.isPrefixOf]
    have := stringsIndex_skip 61 [] (61 :: v) f he
    rw [h0] at this
    simpa using this
  have hI : stringsIndex (f ++ (61 :: v)) (bytes " IN ") =
      (stringsIndex v (bytes " IN ")).map (fun i => i + 1 + f.length) := by
    have h0 : stringsIndex (61 :: v) (32 :: [73, 78, 32]) =
        (stringsIndex v (32 :: [73, 78, 32])).map (fun i => i + 1) := by
      simp [stringsIndex, List.isPrefixOf]
    have := stringsIndex_skip 32 [73, 78, 32] (61 :: v) f hs
    rw [h0] at this
    rw [show (bytes " IN ") = 32 :: [73, 78, 32] from rfl, this]
    cases stringsIndex v (32 :: [73, 78, 32]) <;> simp
  have hst := splitLoop_state (f ++ (61 :: v))
  rw [hE, hI] at hst
  have hst2 : (jqlOperators.foldl (splitLoopBody (f ++ (61 :: v))) (0, [], 0)).1 = f.length ∧
      (jqlOperators.foldl (splitLoopBody (f ++ (61 :: v))) (0, [], 0)).2.1 = opEqual := by
    rw [hst]
    cases stringsIndex v (bytes " IN ") with
    | none => exact ⟨rfl, rfl⟩
    | some b =>
      have hb : ¬ (b + 1 + f.length < f.length) := by omega
      simp only [Option.map_some', hb, if_false, and_self]
  have hp : (bytes "=").isPrefixOf ((f ++ (61 :: v)).drop f.length) = true := by
    rw [bytes_equal]
    simp [List.isPrefixOf]
  have htake : (f ++ (61 :: v)).take f.length = f := by simp
  have hdrop : (f ++ (61 :: v)).drop (f.length + 1) = v := by
    rw [← List.drop_drop]; simp
  rw [hs1]
  rcases SplitJQLQuery_of_state (f ++ (61 :: v)) f.length (opEqual, bytes "=") (by decide) hp
      (by simp) hst2.1 hst2.2 with ⟨_, value, hv, h⟩ | ⟨hk, _⟩
  · rw [htake] at h
    refine ⟨value, ?_, h⟩
    have : (bytes "=").length = 1 := rfl
    simpa [this, hdrop] using hv
  · rw [htake] at hk
    exact absurd hf hk

/-- The parse of a clause `f IN rest` with a whitelisted field. -/
theorem SplitJQLQuery_in (f : GoString) (hf : f ∈ supportedJQLKeys) (v : GoString) :
    ∃ value, trimQuotes v = some value ∧
      SplitJQLQuery (f ++ (bytes " IN ") ++ v) = some (Except.ok ⟨f, opContains, value⟩) := by
  obtain ⟨he, hs, _⟩ := supportedJQLKeys_chars f hf
  have hs1 : f ++ (bytes " IN ") ++ v = f ++ (32 :: 73 :: 78 :: 32 :: v) := by
    rw [List.append_assoc]; rfl
  have hI : stringsIndex (f ++ (32 :: 73 :: 78 :: 32 :: v)) (bytes " IN ") =
      some f.length := by
    have h0 : stringsIndex (32 :: 73 :: 78 :: 32 :: v) (32 :: [73, 78, 32]) = some 0 := by
      simp [stringsIndex, List.isPrefixOf]
    have := stringsIndex_skip 32 [73, 78, 32] (32 :: 73 :: 78 :: 32 :: v) f hs
    rw [h0] at this
    rw [show (bytes " IN ") = 32 :: [73, 78, 32] from rfl, this]
    simp
  have hE : stringsIndex (f ++ (32 :: 73 :: 78 :: 32 :: v)) (bytes "=") =
      (stringsIndex (73 :: 78 :: 32 :: v) (bytes "=")).map (fun i => i + 1 + f.length) := by
    have h0 : stringsIndex (32 :: 73 :: 78 :: 32 :: v) [61] =
        (stringsIndex (73 :: 78 :: 32 :: v) [61]).map (fun i => i + 1) := by
      rw [stringsIndex]
      simp [List.isPrefixOf]
    have := stringsIndex_skip 61 [] (32 :: 73 :: 78 :: 32 :: v) f he
    rw [h0] at this
    rw [show (bytes "=") = [61] from rfl, this]
    cases stringsIndex (73 :: 78 :: 32 :: v) [61] <;> simp
  have hst := splitLoop_state (f ++ (32 :: 73 :: 78 :: 32 :: v))
  rw [hE, hI] at hst
  have hst2 :
      (jqlOperators.foldl (splitLoopBody (f ++ (32 :: 73 :: 78 :: 32 :: v))) (0, [], 0)).1 =
        f.length ∧
      (jqlOperators.foldl (splitLoopBody (f ++ (32 :: 73 :: 78 :: 32 :: v))) (0, [], 0)).2.1 =
        opContains := by
    rw [hst]
    cases stringsIndex (73 :: 78 :: 32 :: v) (bytes "=") with
    | none => exact ⟨rfl, rfl⟩
    | some b =>
      have hb : f.length < b + 1 + f.length := by omega
      simp only [Option.map_some', hb, if_true, and_self]
  have hp : (bytes " IN ").isPrefixOf
      ((f ++ (32 :: 73 :: 78 :: 32 :: v)).drop f.length) = true := by
    rw [bytes_IN]
    simp [List.isPrefixOf]
  have htake : (f ++ (32 :: 73 :: 78 :: 32 :: v)).take f.length = f := by simp
  have hdrop : (f ++ (32 :: 73 :: 78 :: 32 :: v)).drop (f.length + 4) = v := by
    rw [← List.drop_drop]; simp
  rw [hs1]
  rcases SplitJQLQuery_of_state (f ++ (32 :: 73 :: 78 :: 32 :: v)) f.length
      (opContains, bytes " IN ") (by decide) hp (by simp) hst2.1 hst2.2 with
    ⟨_, value, hv, h⟩ | ⟨hk, _⟩
  · rw [htake] at h
    refine ⟨value, ?_, h⟩
    have : (bytes " IN ").length = 4 := rfl
    simpa [this, hdrop] using hv
  · rw [htake] at hk
    exact absurd hf hk

theorem ParseJQL_single (s : GoString) (q : JqlQuery) (hs : '&'.toNat ∉ s)
    (h : SplitJQLQuery s = some (Except.ok q)) : ParseJQL s = some ⟨[q]⟩ := by
  rw [ParseJQL_eq, stringsSplit_of_not_mem '&'.toNat s hs]
  simp [parsedClauses, parsedClause, h]

/-- C6. Equality clause parsing: for a whitelisted field `f` and any string `v`,
`SplitJQLQuery` of `f=v` succeeds (whichever order the map iteration takes) with
key `f`, operator `equal` and a value that is `v` without its first and last
byte when `v` is a quote, a middle part and the same quote again, and `v`
itself otherwise; when `v` has no `&`, `ParseJQL` of the clause is exactly this
one predicate. -/
theorem SplitJQLQuery_equality_clause (ops : List (GoString × GoString))
    (hops : ops ∈ jqlOperatorOrders) (f : GoString) (hf : f ∈ supportedJQLKeys)
    (v : GoString) :
    ∃ value,
      SplitJQLQueryOrd ops (f ++ (bytes "=") ++ v) = some (Except.ok ⟨f, opEqual, value⟩) ∧
      (∀ q m, (q = dquote ∨ q = squote) → v = q :: (m ++ [q]) → value = m) ∧
      ((¬ ∃ q m, (q = dquote ∨ q = squote) ∧ v = q :: (m ++ [q])) → value = v) ∧
      ('&'.toNat ∉ v → ParseJQL (f ++ (bytes "=") ++ v) = some ⟨[⟨f, opEqual, value⟩]⟩) := by
  obtain ⟨value, hv, h⟩ := SplitJQLQuery_equal f hf v
  refine ⟨value, ?_, ?_, ?_, ?_⟩
  · rw [SplitJQLQueryOrd_order ops hops, h]
  · intro q m hq hvq
    subst hvq
    rw [trimQuotes_quoted q m hq] at hv
    exact (Option.some.inj hv).symm
  · intro hn
    rw [trimQuotes_unquoted v hn] at hv
    exact (Option.some.inj hv).symm
  · intro hamp
    apply ParseJQL_single _ _ _ h
    have hf2 := (supportedJQLKeys_chars f hf).2.2
    rw [bytes_equal]
    intro hmem
    rcases List.mem_append.mp hmem with hfe | hv2
    · rcases List.mem_append.mp hfe with hf3 | he3
      · exact hf2 hf3
      · rw [amp_toNat] at he3
        revert he3
        decide
    · exact hamp hv2

/-- C7. IN clause parsing: for a whitelisted field `f` and any list body `l`,
`SplitJQLQuery` of `f IN (l)` succeeds (whichever order the map iteration
takes) with key `f`, operator `contains` and the whole parenthesized text
`(l)` as value, unsplit and unstripped. -/
theorem SplitJQLQuery_in_clause (ops : List (GoString × GoString))
    (hops : ops ∈ jqlOperatorOrders) (f : GoString) (hf : f ∈ supportedJQLKeys)
    (l : GoString) :
    SplitJQLQueryOrd ops (f ++ (bytes " IN ") ++ ((bytes "(") ++ l ++ (bytes ")"))) =
      some (Except.ok ⟨f, opContains, (bytes "(") ++ l ++ (bytes ")")⟩) := by
  obtain ⟨value, hv, h⟩ := SplitJQLQuery_in f hf ((bytes "(") ++ l ++ (bytes ")"))
  have hn : ¬ ∃ q m, (q = dquote ∨ q = squote) ∧
      (bytes "(") ++ l ++ (bytes ")") = q :: (m ++ [q]) := by
    rintro ⟨q, m, hq, he⟩
    have he2 : 40 :: (l ++ [41]) = q :: (m ++ [q]) := by
      rw [bytes_lparen, bytes_rparen] at he
      simpa using he
    have hq2 : 40 = q := (List.cons.inj he2).1
    subst hq2
    revert hq
    decide
  rw [trimQuotes_unquoted _ hn] at hv
  rw [SplitJQLQueryOrd_order ops hops, h, ← Option.some.inj hv]

theorem operatorAt_of_entry (s : GoString) (i : Nat) (entry : GoString × GoString)
    (hmem : entry ∈ jqlOperators) (hp : entry.2.isPrefixOf (s.drop i) = true) :
    operatorAt s i = true := by
  simp only [jqlOperators, List.mem_cons, List.mem_singleton, List.not_mem_nil, or_false] at hmem
  rcases hmem with rfl | rfl
  · simp only [operatorAt, Bool.or_eq_true]; exact Or.inl hp
  · simp only [operatorAt, Bool.or_eq_true]; exact Or.inr hp

/-- What a successful `SplitJQLQuery` returns: a whitelisted key, the name of
an operator, and a clause made of the key, the operator's token and the text
whose unquoting is the value. -/
theorem SplitJQLQuery_ok (c : GoString) (q : JqlQuery)
    (h : SplitJQLQuery c = some (Except.ok q)) :
    q.Key ∈ supportedJQLKeys ∧ ∃ entry, entry ∈ jqlOperators ∧ q.Operator = entry.1 ∧
      ∃ rest, c = q.Key ++ entry.2 ++ rest ∧ trimQuotes rest = some q.Value := by
  rcases SplitJQLQuery_cases c with ⟨_, h2⟩ | ⟨i, entry, hmem, hp, hi, _, ⟨hk, v, hv, h2⟩ | ⟨_, h2⟩⟩
  · rw [h2] at h; cases h
  · rw [h2] at h
    cases h
    refine ⟨hk, entry, hmem, rfl, c.drop (i + entry.2.length), ?_, hv⟩
    obtain ⟨t, ht⟩ := List.isPrefixOf_iff_prefix.mp hp
    have hlen : (c.drop i).drop entry.2.length = t := by
      rw [← ht]; simp
    rw [List.drop_drop] at hlen
    show c = c.take i ++ entry.2 ++ c.drop (i + entry.2.length)
    rw [hlen, List.append_assoc, ht, List.take_append_drop]
  · rw [h2] at h; cases h

/-- C9. Whitelist rejection: `SplitJQLQuery` returns an error exactly when there
is no leftmost operator token in the clause whose preceding text is one of the
whitelisted fields; so a clause with no operator token, and a clause that
starts with one, are rejected. -/
theorem SplitJQLQuery_whitelist_rejection (ops : List (GoString × GoString))
    (hops : ops ∈ jqlOperatorOrders) (s : GoString) :
    ((∃ msg, SplitJQLQueryOrd ops s = some (Except.error msg)) ↔
      ¬ ∃ i, operatorAt s i = true ∧ (∀ j, j < i → operatorAt s j = false) ∧
        s.take i ∈ supportedJQLKeys) ∧
    ((∀ i, operatorAt s i = false) → ∃ msg, SplitJQLQueryOrd ops s = some (Except.error msg)) ∧
    (operatorAt s 0 = true → ∃ msg, SplitJQLQueryOrd ops s = some (Except.error msg)) := by
  have key : (∃ msg, SplitJQLQueryOrd ops s = some (Except.error msg)) ↔
      ¬ ∃ i, operatorAt s i = true ∧ (∀ j, j < i → operatorAt s j = false) ∧
        s.take i ∈ supportedJQLKeys := by
    rw [SplitJQLQueryOrd_order ops hops]
    rcases SplitJQLQuery_cases s with
      ⟨hno, h⟩ | ⟨i, entry, hmem, hp, hi, hleft, ⟨hk, v, hv, h⟩ | ⟨hk, h⟩⟩
    · constructor
      · rintro _ ⟨i, hi, _⟩
        rw [hno i] at hi
        cases hi
      · intro _
        exact ⟨_, h⟩
    · constructor
      · rintro ⟨msg, hmsg⟩
        rw [h] at hmsg
        cases hmsg
      · intro hn
        exact absurd ⟨i, operatorAt_of_entry s i entry hmem hp, hleft, hk⟩ hn
    · constructor
      · rintro _ ⟨i2, hi2, hleft2, hk2⟩
        have hat := operatorAt_of_entry s i entry hmem hp
        have hii : i2 = i := by
          rcases Nat.lt_trichotomy i2 i with hlt | heq | hgt
          · rw [hleft i2 hlt] at hi2; cases hi2
          · exact heq
          · rw [hleft2 i hgt] at hat; cases hat
        subst hii
        exact hk hk2
      · intro _
        exact ⟨_, h⟩
  refine ⟨key, ?_, ?_⟩
  · intro hno
    apply key.mpr
    rintro ⟨i, hi, _⟩
    rw [hno i] at hi
    cases hi
  · intro h0
    apply key.mpr
    rintro ⟨i, hi, hleft, hk⟩
    cases i with
    | zero =>
      revert hk
      simp only [List.take_zero]
      decide
    | succ i =>
      rw [hleft 0 (by omega)] at h0
      cases h0

theorem stringsSplit_intercalate : ∀ cs : List GoString, cs ≠ [] → (∀ c ∈ cs, '&'.toNat ∉ c) →
    stringsSplit ((bytes "&").intercalate cs) '&'.toNat = cs := by
  intro cs
  induction cs with
  | nil => intro h; exact absurd rfl h
  | cons c rest ih =>
    intro _ hall
    cases rest with
    | nil =>
      have : (bytes "&").intercalate [c] = c := by simp [List.intercalate]
      rw [this]
      exact stringsSplit_of_not_mem '&'.toNat c (hall c (by simp))
    | cons c2 rest2 =>
      have : (bytes "&").intercalate (c :: c2 :: rest2) =
          c ++ '&'.toNat :: (bytes "&").intercalate (c2 :: rest2) := by
        rw [bytes_amp, amp_toNat]
        simp [List.intercalate]
      rw [this, stringsSplit_append, ih (by simp) (fun x hx => hall x (by simp [hx])),
        stringsSplit_of_not_mem '&'.toNat c (hall c (by simp))]
      rfl

theorem parsedClauses_of_forall₂ (cs : List GoString) (qs : List JqlQuery)
    (h : List.Forall₂ (fun c q => '&'.toNat ∉ c ∧ SplitJQLQuery c = some (Except.ok q)) cs qs) :
    parsedClauses cs = qs := by
  induction h with
  | nil => rfl
  | cons hd _ ih =>
    simp only [parsedClauses, List.filterMap_cons, parsedClause, hd.2]
    exact congrArg _ ih

theorem clauses_without_amp (cs : List GoString) (qs : List JqlQuery)
    (h : List.Forall₂ (fun c q => '&'.toNat ∉ c ∧ SplitJQLQuery c = some (Except.ok q)) cs qs) :
    ∀ c ∈ cs, '&'.toNat ∉ c := by
  induction h with
  | nil => intro c hc; cases hc
  | cons hd _ ih =>
    intro c hc
    rcases List.mem_cons.mp hc with rfl | hc2
    · exact hd.1
    · exact ih c hc2

/-- C8. Conjunction order is preserved: the predicates of `a&b` are those of
`a` followed by those of `b`; so a query made of clauses without `&` that each
parse, joined by `&`, yields exactly the parses of the clauses, one per clause
and in order, each with a whitelisted key that is the text of its clause before
the operator token. -/
theorem ParseJQL_conjunction :
    (∀ a b : GoString, ∃ pa pb, ParseJQL a = some pa ∧ ParseJQL b = some pb ∧
      ParseJQL (a ++ (bytes "&") ++ b) = some ⟨pa.Jql ++ pb.Jql⟩) ∧
    (∀ (cs : List GoString) (qs : List JqlQuery),
      List.Forall₂ (fun c q => '&'.toNat ∉ c ∧ SplitJQLQuery c = some (Except.ok q)) cs qs →
        ParseJQL ((bytes "&").intercalate cs) = some ⟨qs⟩ ∧ qs.length = cs.length ∧
        List.Forall₂ (fun c q => q.Key ∈ supportedJQLKeys ∧
          ∃ rest, c = q.Key ++ (bytes "=") ++ rest ∨ c = q.Key ++ (bytes " IN ") ++ rest) cs qs) := by
  constructor
  · intro a b
    refine ⟨_, _, ParseJQL_eq a, ParseJQL_eq b, ?_⟩
    rw [ParseJQL_eq]
    have : a ++ (bytes "&") ++ b = a ++ '&'.toNat :: b := by
      rw [bytes_amp, amp_toNat]
      simp
    rw [this, stringsSplit_append]
    simp [parsedClauses]
  · intro cs qs h
    refine ⟨?_, h.length_eq.symm, ?_⟩
    · rw [ParseJQL_eq]
      cases cs with
      | nil =>
        cases h
        decide
      | cons c rest =>
        rw [stringsSplit_intercalate _ (by simp), parsedClauses_of_forall₂ _ _ h]
        exact clauses_without_amp _ _ h
    · refine h.imp ?_
      intro c q hcq
      obtain ⟨hk, entry, hmem, _, rest, hc, _⟩ := SplitJQLQuery_ok c q hcq.2
      refine ⟨hk, rest, ?_⟩
      simp only [jqlOperators, List.mem_cons, List.mem_singleton, List.not_mem_nil,
        or_false] at hmem
      rcases hmem with rfl | rfl
      · exact Or.inl hc
      · exact Or.inr hc

theorem effectiveMax_pos (options : SearchOptions) (hmax : 0 ≤ options.MaxResults) :
    0 < effectiveMax options := by
  unfold effectiveMax
  split_ifs <;> omega

theorem goSliceTo_limit {α : Type} (l : List α) (m : Int) (hm : 0 ≤ m) :
    goSliceTo l (if (l.length : Int) < m then (l.length : Int) else m) =
      some (l.take m.toNat) := by
  split_ifs with h
  · have h2 : l.length ≤ m.toNat := by omega
    simp [goSliceTo, goSlice, List.take_of_length_le h2]
  · have h2 : m.toNat ≤ l.length := by omega
    simp [goSliceTo, goSlice, hm, h2]

theorem Search_abort (f : FakeClient) (jql : GoString) (options : SearchOptions)
    (hf : f.GetIssueError = none) (hc : finalCandidates f jql = none) :
    Search f jql options = none := by
  simp only [finalCandidates, ParseJQL_eq] at hc
  simp only [Search, SearchWithContext, hf, ParseJQL_eq]
  simp only [Option.bind_eq_bind, Option.some_bind] at hc ⊢
  rw [hc]
  rfl

theorem Search_notFound (f : FakeClient) (jql : GoString) (options : SearchOptions)
    (hf : f.GetIssueError = none) (hc : finalCandidates f jql = some []) :
    Search f jql options =
      some (⟨none, none, some (GoError.notFound (notFoundText jql))⟩, options) := by
  simp only [finalCandidates, ParseJQL_eq] at hc
  simp only [Search, SearchWithContext, hf, ParseJQL_eq]
  simp only [Option.bind_eq_bind, Option.some_bind] at hc ⊢
  rw [hc]
  rfl

theorem Search_found (f : FakeClient) (jql : GoString) (options : SearchOptions)
    (l : List Issue) (hf : f.GetIssueError = none) (hc : finalCandidates f jql = some l)
    (hl : l ≠ []) (hmax : 0 ≤ options.MaxResults) :
    Search f jql options =
      some (⟨some (l.take (effectiveMax options).toNat),
          some ⟨options.StartAt, effectiveMax options, (l.length : Int)⟩, none⟩,
        ⟨options.StartAt, effectiveMax options⟩) := by
  simp only [finalCandidates, ParseJQL_eq] at hc
  simp only [Search, SearchWithContext, hf, ParseJQL_eq]
  simp only [Option.bind_eq_bind, Option.some_bind] at hc ⊢
  rw [hc]
  have hlen : ¬ l.length = 0 := by
    intro h0
    exact hl (List.length_eq_zero.mp h0)
  simp only [Option.some_bind, hlen, if_false]
  have hopt : (if options.MaxResults = 0 then (⟨options.StartAt, 50⟩ : SearchOptions)
      else options) = ⟨options.StartAt, effectiveMax options⟩ := by
    unfold effectiveMax
    split_ifs <;> rfl
  rw [hopt]
  simp only [goSliceTo_limit l (effectiveMax options) (effectiveMax_pos options hmax).le,
    Option.some_bind]
  rfl

theorem Search_of_error (f : FakeClient) (jql : GoString) (options : SearchOptions)
    (e : GoError) (hf : f.GetIssueError = some e) :
    Search f jql options = some (⟨none, none, some e⟩, options) := by
  simp only [Search, SearchWithContext, hf]

/-- C4. Pagination cap: for a search that returns without error on a
non-negative window, with `M` the effective window (50 for a request of 0, else
the request), the response echoes `M` as `MaxResults`, `Total` is the size of
the whole candidate set left after the last predicate, and the items are the
first `min M Total` of that set. -/
theorem Search_pagination (f : FakeClient) (jql : GoString) (options : SearchOptions)
    (r : SearchReturn) (o : SearchOptions)
    (hf : f.GetIssueError = none) (hmax : 0 ≤ options.MaxResults)
    (h : Search f jql options = some (r, o)) (hok : r.err = none) :
    ∃ items resp l, r.items = some items ∧ r.response = some resp ∧
      finalCandidates f jql = some l ∧
      resp.MaxResults = effectiveMax options ∧
      resp.Total = (l.length : Int) ∧
      (items.length : Int) = min (effectiveMax options) resp.Total ∧
      (items.length : Int) ≤ resp.Total ∧
      items = l.take items.length := by
  cases hc : finalCandidates f jql with
  | none =>
    rw [Search_abort f jql options hf hc] at h
    cases h
  | some l =>
    by_cases hl : l = []
    · subst hl
      rw [Search_notFound f jql options hf hc] at h
      cases h
      cases hok
    · rw [Search_found f jql options l hf hc hl hmax] at h
      cases h
      have hpos := effectiveMax_pos options hmax
      refine ⟨_, _, l, rfl, rfl, rfl, rfl, rfl, ?_, ?_, ?_⟩
      · simp only [List.length_take]
        omega
      · simp only [List.length_take]
        omega
      · simp only [List.length_take, List.take_eq_take, Nat.min_assoc, Nat.min_self]

/-- C5. Total is independent of truncation: for two positive windows
`m1 ≤ m2`, the search with `m1` returns without error exactly when the search
with `m2` does, and then both report the same `Total` and the items for `m1`
are a prefix of the items for `m2`. -/
theorem Search_total_independent (f : FakeClient) (jql : GoString) (startAt m1 m2 : Int)
    (h1 : 0 < m1) (h12 : m1 ≤ m2) :
    ((∃ r o, Search f jql ⟨startAt, m1⟩ = some (r, o) ∧ r.err = none) ↔
      (∃ r o, Search f jql ⟨startAt, m2⟩ = some (r, o) ∧ r.err = none)) ∧
    (∀ r1 o1 r2 o2, Search f jql ⟨startAt, m1⟩ = some (r1, o1) →
      Search f jql ⟨startAt, m2⟩ = some (r2, o2) → r1.err = none → r2.err = none →
      ∃ items1 items2 resp1 resp2, r1.items = some items1 ∧ r2.items = some items2 ∧
        r1.response = some resp1 ∧ r2.response = some resp2 ∧
        resp1.Total = resp2.Total ∧ items1 <+: items2) := by
  cases hf : f.GetIssueError with
  | some e =>
    have hno : ∀ opts r o, Search f jql opts = some (r, o) → r.err = none → False := by
      intro opts r o h herr
      rw [Search_of_error f jql _ e hf] at h
      cases h
      cases herr
    exact ⟨⟨fun ⟨_, _, h, herr⟩ => (hno _ _ _ h herr).elim,
      fun ⟨_, _, h, herr⟩ => (hno _ _ _ h herr).elim⟩,
      fun _ _ _ _ h _ herr _ => (hno _ _ _ h herr).elim⟩
  | none =>
    cases hc : finalCandidates f jql with
    | none =>
      rw [Search_abort f jql _ hf hc, Search_abort f jql _ hf hc]
      simp
    | some l =>
      by_cases hl : l = []
      · subst hl
        have hno : ∀ opts r o, Search f jql opts = some (r, o) → r.err = none → False := by
          intro opts r o h herr
          rw [Search_notFound f jql _ hf hc] at h
          cases h
          cases herr
        exact ⟨⟨fun ⟨_, _, h, herr⟩ => (hno _ _ _ h herr).elim,
          fun ⟨_, _, h, herr⟩ => (hno _ _ _ h herr).elim⟩,
          fun _ _ _ _ h _ herr _ => (hno _ _ _ h herr).elim⟩
      · have hm1 : (0 : Int) ≤ (⟨startAt, m1⟩ : SearchOptions).MaxResults := h1.le
        have hm2 : (0 : Int) ≤ (⟨startAt, m2⟩ : SearchOptions).MaxResults := by
          show 0 ≤ m2
          omega
        rw [Search_found f jql _ l hf hc hl hm1, Search_found f jql _ l hf hc hl hm2]
        refine ⟨⟨fun _ => ⟨_, _, rfl, rfl⟩, fun _ => ⟨_, _, rfl, rfl⟩⟩, ?_⟩
        intro r1 o1 r2 o2 e1 e2 _ _
        cases e1
        cases e2
        refine ⟨_, _, _, _, rfl, rfl, rfl, rfl, rfl, ?_⟩
        apply List.take_prefix_take_left
        have e1 : effectiveMax ⟨startAt, m1⟩ = m1 := by
          unfold effectiveMax
          have : ¬ m1 = 0 := by omega
          simp [this]
        have e2 : effectiveMax ⟨startAt, m2⟩ = m2 := by
          unfold effectiveMax
          have : ¬ m2 = 0 := by omega
          simp [this]
        rw [e1, e2]
        omega

/-- C1. The search does not implement the AND of its predicates: on the
corpus of `TestClient_Search`, the query `id=999&project=Test1` parses to two
predicates, no record satisfies the first (so none satisfies both), and yet the
search returns without error, with `Total` 1 and the record 123. -/
theorem Search_and_semantics_violated :
    ParseJQL (bytes "id=999&project=Test1") =
      some ⟨[⟨bytes "id", opEqual, bytes "999"⟩,
        ⟨bytes "project", opEqual, bytes "Test1"⟩]⟩ ∧
    testIssueList.filter (fun e => satisfies ⟨bytes "id", opEqual, bytes "999"⟩ e) = [] ∧
    testIssueList.filter (fun e => satisfies ⟨bytes "id", opEqual, bytes "999"⟩ e &&
      satisfies ⟨bytes "project", opEqual, bytes "Test1"⟩ e) = [] ∧
    Search testClient (bytes "id=999&project=Test1") ⟨0, 0⟩ =
      some (⟨some [testIssue "123" "Test1"], some ⟨0, 50, 1⟩, none⟩, ⟨0, 50⟩) := by
  decide

/-- C2, counterexample. On the non-empty corpus of `TestClient_Search` the
empty query parses to no predicate, and the search does not return the corpus:
it returns the NotFound error. -/
theorem Search_empty_predicates_counterexample :
    testClient.IssueSearch ≠ [] ∧ testClient.GetIssueError = none ∧
    ParseJQL (bytes "") = some ⟨[]⟩ ∧
    Search testClient (bytes "") ⟨0, 0⟩ =
      some (⟨none, none, some (GoError.notFound (notFoundText (bytes "")))⟩, ⟨0, 0⟩) ∧
    ¬ ∃ r o, Search testClient (bytes "") ⟨0, 0⟩ = some (r, o) ∧ r.err = none := by
  refine ⟨by decide, by decide, by decide, by decide, ?_⟩
  rintro ⟨r, o, h, herr⟩
  have h2 : Search testClient (bytes "") ⟨0, 0⟩ =
      some (⟨none, none, some (GoError.notFound (notFoundText (bytes "")))⟩, ⟨0, 0⟩) := by
    decide
  rw [h2] at h
  cases h
  cases herr

/-- C2, amended. For every corpus and window, with `GetIssueError` unset, a
query for which `ParseJQL` returns no predicate makes the search return nil
items, a nil response and the NotFound error, and leaves the options as
passed. -/
theorem Search_empty_predicates (f : FakeClient) (jql : GoString) (options : SearchOptions)
    (hf : f.GetIssueError = none) (hp : ParseJQL jql = some ⟨[]⟩) :
    Search f jql options =
      some (⟨none, none, some (GoError.notFound (notFoundText jql))⟩, options) := by
  apply Search_notFound f jql options hf
  simp only [finalCandidates, hp]
  rfl

theorem Search_empty_predicates_witness :
    testClient.GetIssueError = none ∧
    ParseJQL (bytes "unknown_query=test") = some ⟨[]⟩ ∧
    Search testClient (bytes "unknown_query=test") ⟨0, 7⟩ =
      some (⟨none, none, some (GoError.notFound (notFoundText (bytes "unknown_query=test")))⟩,
        ⟨0, 7⟩) :=
  ⟨by decide, by decide,
    Search_empty_predicates testClient (bytes "unknown_query=test") ⟨0, 7⟩ (by decide) (by decide)⟩

theorem Search_pagination_witness :
    testClient.GetIssueError = none ∧ (0 : Int) ≤ (⟨0, 1⟩ : SearchOptions).MaxResults ∧
    Search testClient (bytes "id IN (123,1234)") ⟨0, 1⟩ =
      some (⟨some [testIssue "123" "Test1"], some ⟨0, 1, 2⟩, none⟩, ⟨0, 1⟩) ∧
    ∃ items resp l,
      (⟨some [testIssue "123" "Test1"], some ⟨0, 1, 2⟩, none⟩ : SearchReturn).items = some items ∧
      (⟨some [testIssue "123" "Test1"], some ⟨0, 1, 2⟩, none⟩ : SearchReturn).response =
        some resp ∧
      finalCandidates testClient (bytes "id IN (123,1234)") = some l ∧
      resp.MaxResults = effectiveMax ⟨0, 1⟩ ∧
      resp.Total = (l.length : Int) ∧
      (items.length : Int) = min (effectiveMax ⟨0, 1⟩) resp.Total ∧
      (items.length : Int) ≤ resp.Total ∧
      items = l.take items.length :=
  ⟨by decide, by decide, by decide,
    Search_pagination testClient (bytes "id IN (123,1234)") ⟨0, 1⟩
      ⟨some [testIssue "123" "Test1"], some ⟨0, 1, 2⟩, none⟩ ⟨0, 1⟩
      (by decide) (by decide) (by decide) (by decide)⟩

theorem Search_total_independent_witness :
    (0 : Int) < 1 ∧ (1 : Int) ≤ 2 ∧
    Search testClient (bytes "id IN (123,1234)") ⟨0, 1⟩ =
      some (⟨some [testIssue "123" "Test1"], some ⟨0, 1, 2⟩, none⟩, ⟨0, 1⟩) ∧
    Search testClient (bytes "id IN (123,1234)") ⟨0, 2⟩ =
      some (⟨some [testIssue "123" "Test1", testIssue "1234" "Test2"], some ⟨0, 2, 2⟩, none⟩,
        ⟨0, 2⟩) ∧
    (((∃ r o, Search testClient (bytes "id IN (123,1234)") ⟨0, 1⟩ = some (r, o) ∧ r.err = none) ↔
      (∃ r o, Search testClient (bytes "id IN (123,1234)") ⟨0, 2⟩ = some (r, o) ∧ r.err = none)) ∧
    (∀ r1 o1 r2 o2, Search testClient (bytes "id IN (123,1234)") ⟨0, 1⟩ = some (r1, o1) →
      Search testClient (bytes "id IN (123,1234)") ⟨0, 2⟩ = some (r2, o2) →
      r1.err = none → r2.err = none →
      ∃ items1 items2 resp1 resp2, r1.items = some items1 ∧ r2.items = some items2 ∧
        r1.response = some resp1 ∧ r2.response = some resp2 ∧
        resp1.Total = resp2.Total ∧ items1 <+: items2)) :=
  ⟨by decide, by decide, by decide, by decide,
    Search_total_independent testClient (bytes "id IN (123,1234)") 0 1 2 (by decide) (by decide)⟩

/-- C10. The search can abort: on the corpus of `TestClient_Search`, whose
records all have `Fields`, with `GetIssueError` unset, the queries `id IN ` and
`id IN (` parse to a `contains` predicate with the value `""` and `"("`, and
`jqlContains` panics on a slice expression for such a value, so the search
returns neither a result nor NotFound. -/
theorem Search_aborts_on_short_IN_value :
    (∀ e ∈ testClient.IssueSearch, e.Fields ≠ none) ∧ testClient.GetIssueError = none ∧
    ParseJQL (bytes "id IN ") = some ⟨[⟨bytes "id", opContains, []⟩]⟩ ∧
    ParseJQL (bytes "id IN (") = some ⟨[⟨bytes "id", opContains, bytes "("⟩]⟩ ∧
    jqlContains [] (bytes "123") = none ∧
    jqlContains (bytes "(") (bytes "123") = none ∧
    Search testClient (bytes "id IN ") ⟨0, 0⟩ = none ∧
    Search testClient (bytes "id IN (") ⟨0, 0⟩ = none := by
  decide

theorem SplitJQLQuery_equality_clause_witness :
    jqlOperators.reverse ∈ jqlOperatorOrders ∧ (bytes "project") ∈ supportedJQLKeys ∧
    SplitJQLQueryOrd jqlOperators.reverse (bytes "project='Openshift \\=Container=Platform'") =
      some (Except.ok
        ⟨bytes "project", opEqual, bytes "Openshift \\=Container=Platform"⟩) ∧
    ∃ value,
      SplitJQLQueryOrd jqlOperators.reverse
          ((bytes "project") ++ (bytes "=") ++ (bytes "'Openshift \\=Container=Platform'")) =
        some (Except.ok ⟨bytes "project", opEqual, value⟩) ∧
      (∀ q m, (q = dquote ∨ q = squote) →
        (bytes "'Openshift \\=Container=Platform'") = q :: (m ++ [q]) → value = m) ∧
      ((¬ ∃ q m, (q = dquote ∨ q = squote) ∧
        (bytes "'Openshift \\=Container=Platform'") = q :: (m ++ [q])) →
          value = (bytes "'Openshift \\=Container=Platform'")) ∧
      ('&'.toNat ∉ (bytes "'Openshift \\=Container=Platform'") →
        ParseJQL ((bytes "project") ++ (bytes "=") ++
            (bytes "'Openshift \\=Container=Platform'")) =
          some ⟨[⟨bytes "project", opEqual, value⟩]⟩) :=
  ⟨by decide, by decide, by decide,
    SplitJQLQuery_equality_clause jqlOperators.reverse (by decide) (bytes "project") (by decide)
      (bytes "'Openshift \\=Container=Platform'")⟩

theorem SplitJQLQuery_in_clause_witness :
    jqlOperators.reverse ∈ jqlOperatorOrders ∧ (bytes "id") ∈ supportedJQLKeys ∧
    (bytes "id") ++ (bytes " IN ") ++ ((bytes "(") ++ (bytes "123,321,OCP-IN12") ++ (bytes ")")) =
      (bytes "id IN (123,321,OCP-IN12)") ∧
    SplitJQLQueryOrd jqlOperators.reverse
        ((bytes "id") ++ (bytes " IN ") ++
          ((bytes "(") ++ (bytes "123,321,OCP-IN12") ++ (bytes ")"))) =
      some (Except.ok ⟨bytes "id", opContains,
        (bytes "(") ++ (bytes "123,321,OCP-IN12") ++ (bytes ")")⟩) :=
  ⟨by decide, by decide, by decide,
    SplitJQLQuery_in_clause jqlOperators.reverse (by decide) (bytes "id") (by decide)
      (bytes "123,321,OCP-IN12")⟩

theorem ParseJQL_conjunction_witness :
    (bytes "&").intercalate testClauses =
      (bytes "project='Openshift Continuous Release'&id IN (123,321,124)") ∧
    List.map JqlQuery.Key testPredicates = [bytes "project", bytes "id"] ∧
    List.Forall₂ (fun (c : GoString) (q : JqlQuery) =>
        '&'.toNat ∉ c ∧ SplitJQLQuery c = some (Except.ok q)) testClauses testPredicates ∧
    ParseJQL ((bytes "&").intercalate testClauses) = some ⟨testPredicates⟩ ∧
    testPredicates.length = testClauses.length ∧
    List.Forall₂ (fun c q => q.Key ∈ supportedJQLKeys ∧
        ∃ rest, c = q.Key ++ (bytes "=") ++ rest ∨ c = q.Key ++ (bytes " IN ") ++ rest)
      testClauses testPredicates :=
  ⟨by decide, by decide,
    List.Forall₂.cons ⟨by decide, by decide⟩
      (List.Forall₂.cons ⟨by decide, by decide⟩ List.Forall₂.nil),
    ParseJQL_conjunction.2 testClauses testPredicates
      (List.Forall₂.cons ⟨by decide, by decide⟩
        (List.Forall₂.cons ⟨by decide, by decide⟩ List.Forall₂.nil))⟩

theorem SplitJQLQuery_whitelist_rejection_witness :
    jqlOperators.reverse ∈ jqlOperatorOrders ∧
    SplitJQLQueryOrd jqlOperators.reverse (bytes "unknown_query=test") =
      some (Except.error (splitErrorText (bytes "unknown_query=test"))) ∧
    SplitJQLQueryOrd jqlOperators.reverse (bytes "=test") =
      some (Except.error (splitErrorText (bytes "=test"))) ∧
    (((∃ msg, SplitJQLQueryOrd jqlOperators.reverse (bytes "unknown_query=test") =
        some (Except.error msg)) ↔
      ¬ ∃ i, operatorAt (bytes "unknown_query=test") i = true ∧
        (∀ j, j < i → operatorAt (bytes "unknown_query=test") j = false) ∧
        (bytes "unknown_query=test").take i ∈ supportedJQLKeys) ∧
    ((∀ i, operatorAt (bytes "unknown_query=test") i = false) →
      ∃ msg, SplitJQLQueryOrd jqlOperators.reverse (bytes "unknown_query=test") =
        some (Except.error msg)) ∧
    (operatorAt (bytes "unknown_query=test") 0 = true →
      ∃ msg, SplitJQLQueryOrd jqlOperators.reverse (bytes "unknown_query=test") =
        some (Except.error msg))) :=
  ⟨by decide, by decide, by decide,
    SplitJQLQuery_whitelist_rejection jqlOperators.reverse (by decide)
      (bytes "unknown_query=test")⟩

theorem opEqual_ne_opContains : opEqual ≠ opContains := by decide

theorem opContains_ne_opEqual : opContains ≠ opEqual := by decide

/-- The two `if` statements of a `case` other than `id` append the record or
not, or panic, independently of the list they append to. -/
theorem filterOnField_shape (filter : JqlQuery) (e : Issue) (field : Option GoString) :
    ∃ m : Option Bool, ∀ acc : List Issue,
      filterOnField filter acc e field = m.map (fun b => if b then acc ++ [e] else acc) := by
  by_cases h1 : filter.Operator = opEqual
  · have h2 : ¬ filter.Operator = opContains := by
      rw [h1]; exact opEqual_ne_opContains
    cases field with
    | none => exact ⟨none, fun acc => by simp [filterOnField, opEqual_ne_opContains, opContains_ne_opEqual, h1, h2]⟩
    | some name =>
      refine ⟨some (decide (name = filter.Value)), fun acc => ?_⟩
      by_cases hn : name = filter.Value <;> simp [filterOnField, opEqual_ne_opContains, opContains_ne_opEqual, h1, h2, hn]
  · by_cases h2 : filter.Operator = opContains
    · cases field with
      | none => exact ⟨none, fun acc => by simp [filterOnField, opEqual_ne_opContains, opContains_ne_opEqual, h1, h2]⟩
      | some name =>
        refine ⟨jqlContains filter.Value name, fun acc => ?_⟩
        cases hj : jqlContains filter.Value name with
        | none => simp [filterOnField, opEqual_ne_opContains, opContains_ne_opEqual, h1, h2, hj]
        | some b => cases b <;> simp [filterOnField, opEqual_ne_opContains, opContains_ne_opEqual, h1, h2, hj]
    · exact ⟨some false, fun acc => by simp [filterOnField, opEqual_ne_opContains, opContains_ne_opEqual, h1, h2]⟩

theorem filterOnId_shape (filter : JqlQuery) (e : Issue) :
    ∃ m : Option Bool, ∀ acc : List Issue,
      filterOnId filter acc e = m.map (fun b => if b then acc ++ [e] else acc) := by
  by_cases h1 : filter.Operator = opEqual
  · have h2 : ¬ filter.Operator = opContains := by
      rw [h1]; exact opEqual_ne_opContains
    refine ⟨some (decide (e.ID = filter.Value ∨ e.Key = filter.Value)), fun acc => ?_⟩
    by_cases hn : e.ID = filter.Value ∨ e.Key = filter.Value <;>
      simp [filterOnId, opEqual_ne_opContains, opContains_ne_opEqual, h1, h2, hn]
  · by_cases h2 : filter.Operator = opContains
    · refine ⟨(jqlContains filter.Value e.ID).bind
        (fun a => if a then some true else jqlContains filter.Value e.Key), fun acc => ?_⟩
      cases hj : jqlContains filter.Value e.ID with
      | none => simp [filterOnId, opEqual_ne_opContains, opContains_ne_opEqual, h1, h2, hj]
      | some a =>
        cases a
        · cases hk : jqlContains filter.Value e.Key with
          | none => simp [filterOnId, opEqual_ne_opContains, opContains_ne_opEqual, h1, h2, hj, hk]
          | some b => cases b <;> simp [filterOnId, opEqual_ne_opContains, opContains_ne_opEqual, h1, h2, hj, hk]
        · simp [filterOnId, opEqual_ne_opContains, opContains_ne_opEqual, h1, h2, hj]
    · exact ⟨some false, fun acc => by simp [filterOnId, opEqual_ne_opContains, opContains_ne_opEqual, h1, h2]⟩

theorem filterIssue_shape (filter : JqlQuery) (e : Issue) :
    ∃ m : Option Bool, ∀ acc : List Issue,
      filterIssue filter acc e = m.map (fun b => if b then acc ++ [e] else acc) := by
  unfold filterIssue
  split_ifs
  · exact filterOnId_shape filter e
  · exact filterOnField_shape filter e _
  · exact filterOnField_shape filter e _
  · exact filterOnField_shape filter e _
  · exact filterOnField_shape filter e _
  · exact ⟨some false, fun acc => by simp⟩

/-- The body of the inner loop appends the record exactly when `matchIssue`
says so, whatever the list it appends to. -/
theorem filterIssue_eq (filter : JqlQuery) (acc : List Issue) (e : Issue) :
    filterIssue filter acc e =
      (matchIssue filter e).map (fun b => if b then acc ++ [e] else acc) := by
  obtain ⟨m, hm⟩ := filterIssue_shape filter e
  have hmatch : matchIssue filter e = m := by
    unfold matchIssue
    rw [hm []]
    cases m with
    | none => rfl
    | some b => cases b <;> simp
  rw [hmatch, hm acc]

theorem satisfies_iff (filter : JqlQuery) (e : Issue) :
    satisfies filter e = true ↔ matchIssue filter e = some true := by
  unfold satisfies
  rw [filterIssue_eq filter [] e]
  cases matchIssue filter e with
  | none => simp
  | some b => cases b <;> simp

/-- The inner loop of the search over a list: when it does not panic it
appends the records of the list that satisfy the predicate, in order. -/
theorem inner_loop_some (filter : JqlQuery) : ∀ (l acc r : List Issue),
    l.foldlM (filterIssue filter) acc = some r → r = acc ++ l.filter (satisfies filter) := by
  intro l
  induction l with
  | nil =>
    intro acc r h
    simp only [List.foldlM, Option.pure_def, Option.some.injEq] at h
    simp [h]
  | cons e es ih =>
    intro acc r h
    rw [List.foldlM_cons, filterIssue_eq] at h
    cases hm : matchIssue filter e with
    | none => rw [hm] at h; simp at h
    | some b =>
      rw [hm] at h
      simp only [Option.map_some', Option.bind_eq_bind, Option.some_bind] at h
      have hr := ih _ _ h
      cases b
      · have hs : satisfies filter e = false := by
          rw [← Bool.not_eq_true, satisfies_iff, hm]; simp
        simp [hr, List.filter_cons, hs]
      · have hs : satisfies filter e = true := by
          rw [satisfies_iff, hm]
        simp [hr, List.filter_cons, hs]

/-- The inner loop of the search does not panic when no record of the list
makes the body panic. -/
theorem inner_loop_total (filter : JqlQuery) : ∀ (l acc : List Issue),
    (∀ e ∈ l, matchIssue filter e ≠ none) →
      l.foldlM (filterIssue filter) acc = some (acc ++ l.filter (satisfies filter)) := by
  intro l
  induction l with
  | nil => intro acc _; simp
  | cons e es ih =>
    intro acc hall
    rw [List.foldlM_cons, filterIssue_eq]
    cases hm : matchIssue filter e with
    | none => exact absurd hm (hall e (by simp))
    | some b =>
      simp only [Option.map_some', Option.bind_eq_bind, Option.some_bind]
      rw [ih _ (fun x hx => hall x (by simp [hx]))]
      cases b
      · have hs : satisfies filter e = false := by
          rw [← Bool.not_eq_true, satisfies_iff, hm]; simp
        simp [List.filter_cons, hs]
      · have hs : satisfies filter e = true := by
          rw [satisfies_iff, hm]
        simp [List.filter_cons, hs]

/-- The step of the outer loop for one predicate: when it does not panic, the
next candidate set is the current one filtered by the predicate, or the corpus
filtered by the predicate when the current one is empty. -/
theorem filterLoopBody_some (corpus cur next : List Issue) (p : JqlQuery)
    (h : filterLoopBody corpus cur p = some next) :
    next = (if cur = [] then corpus else cur).filter (satisfies p) := by
  unfold filterLoopBody at h
  by_cases hc : cur = []
  · subst hc
    simp only [List.length_nil, if_true] at h
    simpa using inner_loop_some p corpus [] next h
  · have hlen : ¬ cur.length = 0 := fun h0 => hc (List.length_eq_zero.mp h0)
    simp only [hlen, if_false] at h
    simpa [hc] using inner_loop_some p cur [] next h

theorem filterLoopBody_total (corpus cur : List Issue) (p : JqlQuery)
    (hall : ∀ e ∈ (if cur = [] then corpus else cur), matchIssue p e ≠ none) :
    filterLoopBody corpus cur p =
      some ((if cur = [] then corpus else cur).filter (satisfies p)) := by
  unfold filterLoopBody
  by_cases hc : cur = []
  · subst hc
    simp only [if_true] at hall
    simp only [List.length_nil, if_true]
    simpa using inner_loop_total p corpus [] hall
  · have hlen : ¬ cur.length = 0 := fun h0 => hc (List.length_eq_zero.mp h0)
    simp only [hc, if_false] at hall
    simp only [hlen, hc, if_false]
    simpa using inner_loop_total p cur [] hall

theorem outer_loop_sublist (corpus : List Issue) : ∀ (filters : List JqlQuery)
    (cur l : List Issue), cur.Sublist corpus →
    filters.foldlM (filterLoopBody corpus) cur = some l → l.Sublist corpus := by
  intro filters
  induction filters with
  | nil =>
    intro cur l hcur h
    simp only [List.foldlM, Option.pure_def, Option.some.injEq] at h
    rw [← h]; exact hcur
  | cons p ps ih =>
    intro cur l hcur h
    rw [List.foldlM_cons] at h
    cases hb : filterLoopBody corpus cur p with
    | none => rw [hb] at h; simp at h
    | some next =>
      rw [hb] at h
      simp only [Option.bind_eq_bind, Option.some_bind] at h
      refine ih next l ?_ h
      rw [filterLoopBody_some corpus cur next p hb]
      split_ifs
      · exact List.filter_sublist _
      · exact (List.filter_sublist _).trans hcur

theorem finalCandidates_eq (f : FakeClient) (jql : GoString) :
    finalCandidates f jql = filterLoop f.IssueSearch (parsedClauses (stringsSplit jql '&'.toNat)) := by
  simp only [finalCandidates, ParseJQL_eq]
  rfl

/-- Every way the search can end, with `GetIssueError` unset. -/
theorem Search_cases (f : FakeClient) (jql : GoString) (options : SearchOptions)
    (hf : f.GetIssueError = none) :
    (finalCandidates f jql = none ∧ Search f jql options = none) ∨
    (finalCandidates f jql = some [] ∧ Search f jql options =
      some (⟨none, none, some (GoError.notFound (notFoundText jql))⟩, options)) ∨
    (∃ l, l ≠ [] ∧ finalCandidates f jql = some l ∧ options.MaxResults < 0 ∧
      Search f jql options = none) ∨
    (∃ l, l ≠ [] ∧ finalCandidates f jql = some l ∧ 0 ≤ options.MaxResults ∧
      Search f jql options =
        some (⟨some (l.take (effectiveMax options).toNat),
            some ⟨options.StartAt, effectiveMax options, (l.length : Int)⟩, none⟩,
          ⟨options.StartAt, effectiveMax options⟩)) := by
  cases hc : finalCandidates f jql with
  | none => exact Or.inl ⟨rfl, Search_abort f jql options hf hc⟩
  | some l =>
    by_cases hl : l = []
    · subst hl
      exact Or.inr (Or.inl ⟨rfl, Search_notFound f jql options hf hc⟩)
    · by_cases hmax : 0 ≤ options.MaxResults
      · exact Or.inr (Or.inr (Or.inr ⟨l, hl, rfl, hmax, Search_found f jql options l hf hc hl hmax⟩))
      · refine Or.inr (Or.inr (Or.inl ⟨l, hl, rfl, by omega, ?_⟩))
        have hc2 := hc
        simp only [finalCandidates, ParseJQL_eq] at hc2
        simp only [Search, SearchWithContext, hf, ParseJQL_eq]
        simp only [Option.bind_eq_bind, Option.some_bind] at hc2 ⊢
        rw [hc2]
        have hne : ¬ options.MaxResults = 0 := by omega
        have hlt : ¬ ((l.length : Int) < options.MaxResults) := by omega
        simp [hl, hne, hlt, goSliceTo, hmax]

/-- C11. A value with only one of the two parentheses is not rejected: `(123`
has length 4, starts with `(` and does not end with `)`, and `jqlContains`
answers true for the field value `12`; likewise `123)` and `23`.  On the corpus
of `TestClient_Search` the query `id IN (1234` returns the record 123. -/
theorem jqlContains_accepts_half_wrapped :
    (bytes "(123").length ≥ 2 ∧ (bytes "(123").getLast? ≠ some ')'.toNat ∧
    jqlContains (bytes "(123") (bytes "12") = some true ∧
    (bytes "123)").length ≥ 2 ∧ (bytes "123)").head? ≠ some '('.toNat ∧
    jqlContains (bytes "123)") (bytes "23") = some true ∧
    ParseJQL (bytes "id IN (1234") = some ⟨[⟨bytes "id", opContains, bytes "(1234"⟩]⟩ ∧
    Search testClient (bytes "id IN (1234") ⟨0, 0⟩ =
      some (⟨some [testIssue "123" "Test1"], some ⟨0, 50, 1⟩, none⟩, ⟨0, 50⟩) := by
  decide

theorem parsedClause_none_of_unknown (c : GoString)
    (h : ∀ i, operatorAt c i = true → (∀ j, j < i → operatorAt c j = false) →
      c.take i ∉ supportedJQLKeys) :
    parsedClause c = none := by
  unfold parsedClause
  rcases SplitJQLQuery_cases c with
    ⟨_, h2⟩ | ⟨i, entry, hmem, hp, _, hleft, ⟨hk, _, _, _⟩ | ⟨_, h2⟩⟩
  · rw [h2]
  · exact absurd hk (h i (operatorAt_of_entry c i entry hmem hp) hleft)
  · rw [h2]

theorem parsedClauses_nil_of_unknown : ∀ (parts : List GoString),
    (∀ c ∈ parts, ∀ i, operatorAt c i = true → (∀ j, j < i → operatorAt c j = false) →
      c.take i ∉ supportedJQLKeys) →
    parsedClauses parts = [] := by
  intro parts
  induction parts with
  | nil => intro _; rfl
  | cons c cs ih =>
    intro h
    have h1 := parsedClause_none_of_unknown c (h c (by simp))
    have h2 := ih (fun x hx => h x (by simp [hx]))
    unfold parsedClauses at h2 ⊢
    rw [List.filterMap_cons, h1]
    exact h2

/-- C13. A query whose every clause names a non-whitelisted field is rejected:
when in every `&`-separated clause the text before the leftmost operator token
(if there is one) is not a whitelisted field, the search, for every client and
window, returns nil items, a nil response and an error, and leaves the options
as passed. -/
theorem Search_rejects_unknown_fields (f : FakeClient) (jql : GoString)
    (options : SearchOptions)
    (h : ∀ c ∈ stringsSplit jql '&'.toNat, ∀ i, operatorAt c i = true →
      (∀ j, j < i → operatorAt c j = false) → c.take i ∉ supportedJQLKeys) :
    ∃ r, Search f jql options = some (r, options) ∧ r.items = none ∧ r.response = none ∧
      ∃ e, r.err = some e := by
  cases hf : f.GetIssueError with
  | some e => exact ⟨_, Search_of_error f jql options e hf, rfl, rfl, e, rfl⟩
  | none =>
    have hc : finalCandidates f jql = some [] := by
      rw [finalCandidates_eq, parsedClauses_nil_of_unknown _ h]
      rfl
    exact ⟨_, Search_notFound f jql options hf hc, rfl, rfl, _, rfl⟩

theorem Search_rejects_unknown_fields_witness :
    (∀ c ∈ stringsSplit (bytes "unknown_query=test") '&'.toNat, ∀ i, operatorAt c i = true →
      (∀ j, j < i → operatorAt c j = false) → c.take i ∉ supportedJQLKeys) ∧
    ∃ r, Search testClient (bytes "unknown_query=test") ⟨0, 50⟩ = some (r, ⟨0, 50⟩) ∧
      r.items = none ∧ r.response = none ∧ ∃ e, r.err = some e := by
  have hyp : ∀ c ∈ stringsSplit (bytes "unknown_query=test") '&'.toNat, ∀ i,
      operatorAt c i = true → (∀ j, j < i → operatorAt c j = false) →
        c.take i ∉ supportedJQLKeys := by
    intro c hc i hi hleft
    have hsplit : stringsSplit (bytes "unknown_query=test") '&'.toNat =
        [bytes "unknown_query=test"] := by decide
    rw [hsplit] at hc
    have hc2 : c = bytes "unknown_query=test" := by simpa using hc
    subst hc2
    have h13 : operatorAt (bytes "unknown_query=test") 13 = true := by decide
    have hi13 : i ≤ 13 := by
      by_contra hcon
      have := hleft 13 (by omega)
      rw [h13] at this
      cases this
    interval_cases i <;> first
      | exact absurd hi (by decide)
      | decide
  exact ⟨hyp, Search_rejects_unknown_fields testClient (bytes "unknown_query=test") ⟨0, 50⟩ hyp⟩

/-- C14. Result order is corpus order: the items returned by a search are a
sublist of the corpus `IssueSearch`, so no record is duplicated, reordered or
invented. -/
theorem Search_items_sublist (f : FakeClient) (jql : GoString) (options : SearchOptions)
    (r : SearchReturn) (o : SearchOptions) (items : List Issue)
    (h : Search f jql options = some (r, o)) (hi : r.items = some items) :
    items.Sublist f.IssueSearch := by
  cases hf : f.GetIssueError with
  | some e =>
    rw [Search_of_error f jql options e hf] at h
    cases h
    cases hi
  | none =>
    rcases Search_cases f jql options hf with
      ⟨_, hs⟩ | ⟨_, hs⟩ | ⟨l, _, _, _, hs⟩ | ⟨l, _, hc, _, hs⟩
    · rw [hs] at h; cases h
    · rw [hs] at h; cases h; cases hi
    · rw [hs] at h; cases h
    · rw [hs] at h
      cases h
      cases hi
      rw [finalCandidates_eq] at hc
      exact (List.take_sublist _ _).trans
        (outer_loop_sublist f.IssueSearch _ [] l (List.nil_sublist _) hc)

theorem Search_items_sublist_witness :
    Search testClient (bytes "id IN (1234, 123 )&project=Test2") ⟨0, 0⟩ =
      some (⟨some [testIssue "1234" "Test2"], some ⟨0, 50, 1⟩, none⟩, ⟨0, 50⟩) ∧
    (⟨some [testIssue "1234" "Test2"], some ⟨0, 50, 1⟩, none⟩ : SearchReturn).items =
      some [testIssue "1234" "Test2"] ∧
    [testIssue "1234" "Test2"].Sublist testClient.IssueSearch :=
  ⟨by decide, rfl,
    Search_items_sublist testClient (bytes "id IN (1234, 123 )&project=Test2") ⟨0, 0⟩
      ⟨some [testIssue "1234" "Test2"], some ⟨0, 50, 1⟩, none⟩ ⟨0, 50⟩
      [testIssue "1234" "Test2"] (by decide) rfl⟩

/-- C15. Parsing is deterministic: `SplitJQLQuery` returns the same value (the
same key, operator and value, or the same error) for the two orders in which
the map iteration may visit the operators; the two tokens never occur at the
same index of a clause, so their leftmost occurrences never tie. -/
theorem SplitJQLQuery_deterministic (s : GoString) :
    SplitJQLQueryOrd jqlOperators s = SplitJQLQueryOrd jqlOperators.reverse s ∧
    (∀ ops1 ∈ jqlOperatorOrders, ∀ ops2 ∈ jqlOperatorOrders,
      SplitJQLQueryOrd ops1 s = SplitJQLQueryOrd ops2 s) ∧
    (∀ i, ((bytes "=").isPrefixOf (s.drop i) && (bytes " IN ").isPrefixOf (s.drop i)) = false) ∧
    (∀ a b, stringsIndex s (bytes "=") = some a → stringsIndex s (bytes " IN ") = some b →
      a ≠ b) := by
  have hrev : jqlOperators.reverse ∈ jqlOperatorOrders := by decide
  have hdis : ∀ i, ((bytes "=").isPrefixOf (s.drop i) &&
      (bytes " IN ").isPrefixOf (s.drop i)) = false := by
    intro i
    cases h : (bytes "=").isPrefixOf (s.drop i) with
    | false => rfl
    | true => rw [tokens_disjoint _ h]; rfl
  refine ⟨?_, ?_, hdis, ?_⟩
  · rw [SplitJQLQueryOrd_order _ hrev]
    rfl
  · intro ops1 h1 ops2 h2
    rw [SplitJQLQueryOrd_order _ h1, SplitJQLQueryOrd_order _ h2]
  · rintro a b ha hb rfl
    have h1 := (stringsIndex_some _ s a ha).1
    have h2 := (stringsIndex_some _ s a hb).1
    have h3 := hdis a
    rw [h1, h2] at h3
    cases h3

theorem SplitJQLQuery_deterministic_witness :
    SplitJQLQueryOrd jqlOperators (bytes "id IN (a=b)") =
      some (Except.ok ⟨bytes "id", opContains, bytes "(a=b)"⟩) ∧
    stringsIndex (bytes "id IN (a=b)") (bytes "=") = some 8 ∧
    stringsIndex (bytes "id IN (a=b)") (bytes " IN ") = some 2 ∧
    (SplitJQLQueryOrd jqlOperators (bytes "id IN (a=b)") =
      SplitJQLQueryOrd jqlOperators.reverse (bytes "id IN (a=b)") ∧
    (∀ ops1 ∈ jqlOperatorOrders, ∀ ops2 ∈ jqlOperatorOrders,
      SplitJQLQueryOrd ops1 (bytes "id IN (a=b)") =
        SplitJQLQueryOrd ops2 (bytes "id IN (a=b)")) ∧
    (∀ i, ((bytes "=").isPrefixOf ((bytes "id IN (a=b)").drop i) &&
      (bytes " IN ").isPrefixOf ((bytes "id IN (a=b)").drop i)) = false) ∧
    (∀ a b, stringsIndex (bytes "id IN (a=b)") (bytes "=") = some a →
      stringsIndex (bytes "id IN (a=b)") (bytes " IN ") = some b → a ≠ b)) :=
  ⟨by decide, by decide, by decide, SplitJQLQuery_deterministic (bytes "id IN (a=b)")⟩

/-- C18. Parser output invariant: for every input `ParseJQL` returns (it does
not panic), it returns at most as many predicates as there are `&`-separated
clauses, and every predicate it returns has a whitelisted key and the operator
name `equal` or `contains`, never the empty name. -/
theorem ParseJQL_output_invariant (jql : GoString) :
    ∃ q, ParseJQL jql = some q ∧
      q.Jql.length ≤ (stringsSplit jql '&'.toNat).length ∧
      ∀ p ∈ q.Jql, p.Key ∈ supportedJQLKeys ∧
        (p.Operator = opEqual ∨ p.Operator = opContains) ∧ p.Operator ≠ [] := by
  refine ⟨_, ParseJQL_eq jql, ?_, ?_⟩
  · exact List.length_filterMap_le _ _
  · intro p hp
    obtain ⟨c, _, hc⟩ := List.mem_filterMap.mp hp
    have hok : SplitJQLQuery c = some (Except.ok p) := by
      unfold parsedClause at hc
      split at hc
      · rename_i q hq
        rw [hq, Option.some.inj hc]
      · cases hc
    obtain ⟨hk, entry, hmem, hop, _⟩ := SplitJQLQuery_ok c p hok
    refine ⟨hk, ?_⟩
    simp only [jqlOperators, List.mem_cons, List.mem_singleton, List.not_mem_nil,
      or_false] at hmem
    rcases hmem with rfl | rfl
    · exact ⟨Or.inl hop, by rw [hop]; decide⟩
    · exact ⟨Or.inr hop, by rw [hop]; decide⟩

theorem ParseJQL_output_invariant_witness :
    ParseJQL (bytes "project='a'&bogus=1&&id IN (1,2)&=x& IN ") =
      some ⟨[⟨bytes "project", opEqual, bytes "a"⟩, ⟨bytes "id", opContains, bytes "(1,2)"⟩]⟩ ∧
    (stringsSplit (bytes "project='a'&bogus=1&&id IN (1,2)&=x& IN ") '&'.toNat).length = 6 ∧
    ∃ q, ParseJQL (bytes "project='a'&bogus=1&&id IN (1,2)&=x& IN ") = some q ∧
      q.Jql.length ≤
        (stringsSplit (bytes "project='a'&bogus=1&&id IN (1,2)&=x& IN ") '&'.toNat).length ∧
      ∀ p ∈ q.Jql, p.Key ∈ supportedJQLKeys ∧
        (p.Operator = opEqual ∨ p.Operator = opContains) ∧ p.Operator ≠ [] :=
  ⟨by decide, by decide,
    ParseJQL_output_invariant (bytes "project='a'&bogus=1&&id IN (1,2)&=x& IN ")⟩

/-- The search for a request that differs only in `StartAt`. -/
theorem Search_withStartAt (f : FakeClient) (jql : GoString) (m s1 s2 : Int) :
    Search f jql ⟨s2, m⟩ = (Search f jql ⟨s1, m⟩).map (withStartAt s2) := by
  cases hf : f.GetIssueError with
  | some e =>
    rw [Search_of_error f jql _ e hf, Search_of_error f jql _ e hf]
    rfl
  | none =>
    rcases Search_cases f jql ⟨s1, m⟩ hf with
      ⟨hc, hs⟩ | ⟨hc, hs⟩ | ⟨l, hl, hc, hm, hs⟩ | ⟨l, hl, hc, hm, hs⟩
    · rw [hs, Search_abort f jql _ hf hc]
      rfl
    · rw [hs, Search_notFound f jql _ hf hc]
      rfl
    · rw [hs]
      rcases Search_cases f jql ⟨s2, m⟩ hf with
        ⟨_, hs2⟩ | ⟨hc2, _⟩ | ⟨_, _, _, _, hs2⟩ | ⟨_, _, _, hm2, _⟩
      · rw [hs2]; rfl
      · rw [hc] at hc2
        exact absurd (Option.some.inj hc2) hl
      · rw [hs2]; rfl
      · exact absurd hm (by
          have : (0 : Int) ≤ m := hm2
          show ¬ m < 0
          omega)
    · have hm2 : (0 : Int) ≤ (⟨s2, m⟩ : SearchOptions).MaxResults := hm
      rw [hs, Search_found f jql _ l hf hc hl hm2]
      rfl

/-- C16. `startAt` does not offset the result: two searches that differ only
in the requested `StartAt` both panic or both return, with the same items, the
same error and the same `MaxResults` and `Total`; the response and the final
options carry the requested `StartAt`. -/
theorem Search_startAt_irrelevant (f : FakeClient) (jql : GoString) (m s1 s2 : Int) :
    Search f jql ⟨s2, m⟩ = (Search f jql ⟨s1, m⟩).map (withStartAt s2) ∧
    (Search f jql ⟨s1, m⟩ = none ↔ Search f jql ⟨s2, m⟩ = none) ∧
    (∀ r1 o1 r2 o2, Search f jql ⟨s1, m⟩ = some (r1, o1) →
      Search f jql ⟨s2, m⟩ = some (r2, o2) →
      r1.items = r2.items ∧ r1.err = r2.err ∧
      r1.response.map Response.Total = r2.response.map Response.Total ∧
      r1.response.map Response.MaxResults = r2.response.map Response.MaxResults ∧
      (∀ resp, r2.response = some resp → resp.StartAt = s2) ∧ o2.StartAt = s2 ∧
      o1.MaxResults = o2.MaxResults) := by
  have key := Search_withStartAt f jql m s1 s2
  refine ⟨key, ?_, ?_⟩
  · rw [key]
    cases Search f jql ⟨s1, m⟩ <;> simp
  · intro r1 o1 r2 o2 h1 h2
    rw [key, h1] at h2
    simp only [Option.map_some', Option.some.injEq, withStartAt, Prod.mk.injEq] at h2
    obtain ⟨hr, ho⟩ := h2
    subst hr
    subst ho
    refine ⟨rfl, rfl, ?_, ?_, ?_, rfl, rfl⟩
    · cases r1.response <;> rfl
    · cases r1.response <;> rfl
    · intro resp hresp
      cases hr1 : r1.response with
      | none => simp [hr1] at hresp
      | some x =>
        simp only [hr1, Option.map_some', Option.some.injEq] at hresp
        rw [← hresp]

theorem Search_startAt_irrelevant_witness :
    Search testClient (bytes "id IN (123,1234)") ⟨0, 1⟩ =
      some (⟨some [testIssue "123" "Test1"], some ⟨0, 1, 2⟩, none⟩, ⟨0, 1⟩) ∧
    Search testClient (bytes "id IN (123,1234)") ⟨1, 1⟩ =
      some (⟨some [testIssue "123" "Test1"], some ⟨1, 1, 2⟩, none⟩, ⟨1, 1⟩) ∧
    (Search testClient (bytes "id IN (123,1234)") ⟨1, 1⟩ =
      (Search testClient (bytes "id IN (123,1234)") ⟨0, 1⟩).map (withStartAt 1) ∧
    (Search testClient (bytes "id IN (123,1234)") ⟨0, 1⟩ = none ↔
      Search testClient (bytes "id IN (123,1234)") ⟨1, 1⟩ = none) ∧
    (∀ r1 o1 r2 o2, Search testClient (bytes "id IN (123,1234)") ⟨0, 1⟩ = some (r1, o1) →
      Search testClient (bytes "id IN (123,1234)") ⟨1, 1⟩ = some (r2, o2) →
      r1.items = r2.items ∧ r1.err = r2.err ∧
      r1.response.map Response.Total = r2.response.map Response.Total ∧
      r1.response.map Response.MaxResults = r2.response.map Response.MaxResults ∧
      (∀ resp, r2.response = some resp → resp.StartAt = 1) ∧ o2.StartAt = 1 ∧
      o1.MaxResults = o2.MaxResults)) :=
  ⟨by decide, by decide, Search_startAt_irrelevant testClient (bytes "id IN (123,1234)") 1 0 1⟩

/-- C20. Effect on the caller's window request: a search that returns leaves
`options.StartAt` as passed; when it returns without error `options.MaxResults`
is the effective window (50 written over a 0, else unchanged); when it returns
an error (NotFound or `GetIssueError`) the options are exactly as passed; so
the options change only by 50 being written over a `MaxResults` of 0 by a
search that succeeds. -/
theorem Search_options_effect (f : FakeClient) (jql : GoString) (options : SearchOptions)
    (r : SearchReturn) (o : SearchOptions) (h : Search f jql options = some (r, o)) :
    o.StartAt = options.StartAt ∧
    (r.err = none → o.MaxResults = (if options.MaxResults = 0 then 50 else options.MaxResults)) ∧
    (r.err ≠ none → o = options) ∧
    (o ≠ options → options.MaxResults = 0 ∧ o.MaxResults = 50 ∧ r.err = none) := by
  cases hf : f.GetIssueError with
  | some e =>
    rw [Search_of_error f jql options e hf] at h
    cases h
    exact ⟨rfl, fun he => (by cases he), fun _ => rfl, fun hne => absurd rfl hne⟩
  | none =>
    rcases Search_cases f jql options hf with
      ⟨_, hs⟩ | ⟨_, hs⟩ | ⟨l, _, _, _, hs⟩ | ⟨l, _, _, _, hs⟩
    · rw [hs] at h; cases h
    · rw [hs] at h
      cases h
      exact ⟨rfl, fun he => (by cases he), fun _ => rfl, fun hne => absurd rfl hne⟩
    · rw [hs] at h; cases h
    · rw [hs] at h
      cases h
      refine ⟨rfl, fun _ => rfl, fun hne => absurd rfl hne, ?_⟩
      intro hne
      by_cases h0 : options.MaxResults = 0
      · refine ⟨h0, ?_, rfl⟩
        show effectiveMax options = 50
        simp [effectiveMax, h0]
      · exfalso
        apply hne
        have : effectiveMax options = options.MaxResults := by simp [effectiveMax, h0]
        rw [this]

theorem Search_options_effect_witness :
    Search testClient (bytes "id IN (123,1234)&project='Test1'") ⟨0, 0⟩ =
      some (⟨some [testIssue "123" "Test1"], some ⟨0, 50, 1⟩, none⟩, ⟨0, 50⟩) ∧
    ((⟨0, 50⟩ : SearchOptions).StartAt = (⟨0, 0⟩ : SearchOptions).StartAt ∧
    ((⟨some [testIssue "123" "Test1"], some ⟨0, 50, 1⟩, none⟩ : SearchReturn).err = none →
      (⟨0, 50⟩ : SearchOptions).MaxResults =
        (if (⟨0, 0⟩ : SearchOptions).MaxResults = 0 then 50
          else (⟨0, 0⟩ : SearchOptions).MaxResults)) ∧
    ((⟨some [testIssue "123" "Test1"], some ⟨0, 50, 1⟩, none⟩ : SearchReturn).err ≠ none →
      (⟨0, 50⟩ : SearchOptions) = ⟨0, 0⟩) ∧
    ((⟨0, 50⟩ : SearchOptions) ≠ ⟨0, 0⟩ → (⟨0, 0⟩ : SearchOptions).MaxResults = 0 ∧
      (⟨0, 50⟩ : SearchOptions).MaxResults = 50 ∧
      (⟨some [testIssue "123" "Test1"], some ⟨0, 50, 1⟩, none⟩ : SearchReturn).err = none)) :=
  ⟨by decide,
    Search_options_effect testClient (bytes "id IN (123,1234)&project='Test1'") ⟨0, 0⟩
      ⟨some [testIssue "123" "Test1"], some ⟨0, 50, 1⟩, none⟩ ⟨0, 50⟩ (by decide)⟩

/-- The value of `jqlContains` on a value wrapped in parentheses: whether the
trimmed field value is among the trimmed elements of the body. -/
theorem jqlContains_wrapped (l x : GoString) :
    jqlContains (bytes "(" ++ l ++ bytes ")") x =
      some (decide (stringsTrimSpace x ∈ (stringsSplit l ','.toNat).map stringsTrimSpace)) := by
  rw [bytes_lparen, bytes_rparen]
  have hs : [40] ++ l ++ [41] = 40 :: (l ++ [41]) := by simp
  rw [hs]
  have h1 : goSlice (40 :: (l ++ [41])) 0 1 = some [40] := by
    simp [goSlice]
  have h2 : goSlice (40 :: (l ++ [41])) 1 ((40 :: (l ++ [41])).length - 1) = some l := by
    simp [goSlice]
  unfold jqlContains
  rw [bytes_lparen, bytes_rparen, h1]
  simp only [Option.bind_eq_bind, Option.some_bind, ne_eq, not_true_eq_false, if_false,
    Option.pure_def, Bool.false_eq_true, h2]
  congr 1
  rw [Bool.eq_iff_iff]
  simp only [List.any_eq_true, decide_eq_true_eq, List.mem_map]

/-- C17, counterexample. The field value ` 123` (with a leading space) is not
one of the trimmed elements of the list `(123)`, whose only element is `123`,
and yet `jqlContains` answers true: it trims the field value too. -/
theorem jqlContains_trims_field_value :
    (stringsSplit (bytes "123") ','.toNat).map stringsTrimSpace = [bytes "123"] ∧
    bytes " 123" ∉ (stringsSplit (bytes "123") ','.toNat).map stringsTrimSpace ∧
    jqlContains (bytes "(" ++ bytes "123" ++ bytes ")") (bytes " 123") = some true := by
  decide

/-- C17, amended. IN membership: for every list body `l` and field value `x`,
`jqlContains` of `(l)` and `x` returns, and it returns true exactly when the
field value with the white space around it trimmed equals one of the elements
obtained by splitting `l` on `,` and trimming the white space around each. -/
theorem jqlContains_membership (l x : GoString) :
    ∃ b, jqlContains (bytes "(" ++ l ++ bytes ")") x = some b ∧
      (b = true ↔ ∃ v ∈ stringsSplit l ','.toNat, stringsTrimSpace v = stringsTrimSpace x) := by
  refine ⟨_, jqlContains_wrapped l x, ?_⟩
  simp only [decide_eq_true_eq, List.mem_map]

/-- Whether `jqlContains` panics depends on the list value only, not on the
field value. -/
theorem jqlContains_none_congr (s x y : GoString) :
    jqlContains s x = none ↔ jqlContains s y = none := by
  unfold jqlContains
  cases goSlice s 0 1 with
  | none => simp
  | some first =>
    by_cases hf : first = bytes "("
    · cases goSlice s 1 (s.length - 1) <;> simp [hf]
    · cases goSlice s (s.length - 1) s.length with
      | none => simp [hf]
      | some last =>
        by_cases hl : last = bytes ")"
        · cases goSlice s 1 (s.length - 1) <;> simp [hf, hl]
        · simp [hf, hl]

theorem matchIssue_id_equal (p : JqlQuery) (e : Issue) (hk : p.Key = bytes "id")
    (ho : p.Operator = opEqual) :
    matchIssue p e = some (decide (e.ID = p.Value ∨ e.Key = p.Value)) := by
  unfold matchIssue filterIssue filterOnId
  by_cases hn : e.ID = p.Value ∨ e.Key = p.Value <;>
    simp [hk, ho, opEqual_ne_opContains, hn]

theorem matchIssue_id_contains (p : JqlQuery) (e : Issue) (hk : p.Key = bytes "id")
    (ho : p.Operator = opContains) :
    matchIssue p e = (jqlContains p.Value e.ID).bind
      (fun a => if a then some true else jqlContains p.Value e.Key) := by
  unfold matchIssue filterIssue filterOnId
  cases hj : jqlContains p.Value e.ID with
  | none => simp [hk, ho, opContains_ne_opEqual, hj]
  | some a =>
    cases a
    · cases hj2 : jqlContains p.Value e.Key with
      | none => simp [hk, ho, opContains_ne_opEqual, hj, hj2]
      | some b => cases b <;> simp [hk, ho, opContains_ne_opEqual, hj, hj2]
    · simp [hk, ho, opContains_ne_opEqual, hj]

theorem filterOnField_equal (p : JqlQuery) (e : Issue) (field : Option GoString)
    (ho : p.Operator = opEqual) :
    (filterOnField p [] e field).map (fun l => !l.isEmpty) =
      field.map (fun name => decide (name = p.Value)) := by
  unfold filterOnField
  cases field with
  | none => simp [ho, opEqual_ne_opContains]
  | some name =>
    by_cases hn : name = p.Value <;> simp [ho, opEqual_ne_opContains, hn]

theorem matchIssue_field_equal (p : JqlQuery) (e : Issue) (hk : p.Key ∈ supportedJQLKeys)
    (hid : p.Key ≠ bytes "id") (ho : p.Operator = opEqual) :
    matchIssue p e = (projectedName p.Key e).map (fun name => decide (name = p.Value)) := by
  have n1 : ¬ bytes "project" = bytes "id" := by decide
  have n2 : ¬ bytes "category" = bytes "id" := by decide
  have n3 : ¬ bytes "category" = bytes "project" := by decide
  have n4 : ¬ bytes "issueType" = bytes "id" := by decide
  have n5 : ¬ bytes "issueType" = bytes "project" := by decide
  have n6 : ¬ bytes "issueType" = bytes "category" := by decide
  have n7 : ¬ bytes "status" = bytes "id" := by decide
  have n8 : ¬ bytes "status" = bytes "project" := by decide
  have n9 : ¬ bytes "status" = bytes "category" := by decide
  have n10 : ¬ bytes "status" = bytes "issueType" := by decide
  simp only [supportedJQLKeys, List.mem_cons, List.mem_singleton, List.not_mem_nil,
    or_false] at hk
  unfold matchIssue filterIssue projectedName
  rcases hk with h | h | h | h | h
  · simp only [h, n1, if_false, if_true]
    exact filterOnField_equal p e _ ho
  · simp only [h, n2, n3, if_false, if_true]
    exact filterOnField_equal p e _ ho
  · exact absurd h hid
  · simp only [h, n4, n5, n6, if_false, if_true]
    exact filterOnField_equal p e _ ho
  · simp only [h, n7, n8, n9, n10, if_false, if_true]
    exact filterOnField_equal p e _ ho

theorem finalCandidates_single (f : FakeClient) (jql : GoString) (p : JqlQuery)
    (hp : ParseJQL jql = some ⟨[p]⟩) :
    finalCandidates f jql = filterLoopBody f.IssueSearch [] p := by
  simp only [finalCandidates, hp, filterLoop]
  simp [List.foldlM]

theorem ParseJQL_mem (jql : GoString) (q : JqlQueries) (p : JqlQuery)
    (hq : ParseJQL jql = some q) (hp : p ∈ q.Jql) :
    ∃ c, SplitJQLQuery c = some (Except.ok p) := by
  rw [ParseJQL_eq] at hq
  cases hq
  obtain ⟨c, _, hc⟩ := List.mem_filterMap.mp hp
  refine ⟨c, ?_⟩
  unfold parsedClause at hc
  split at hc
  · rename_i x hx
    rw [hx, Option.some.inj hc]
  · cases hc

/-- The candidate set after a single predicate: the corpus filtered by the
predicate, when the inner loop does not panic. -/
theorem single_predicate_some (corpus l : List Issue) (p : JqlQuery) (m : Issue → Bool)
    (hm : ∀ e, satisfies p e = m e) (h : filterLoopBody corpus [] p = some l) :
    l = corpus.filter m := by
  have := filterLoopBody_some corpus [] l p h
  simp only [if_true] at this
  rw [this]
  exact List.filter_congr (fun e _ => hm e)

/-- C12. The id field matches on identifier or key: for a query that parses to
the single predicate `p`, with `p` on the field `id` the candidate set is the
corpus filtered by "ID or Key equals the value" (operator `equal`) or by "ID or
Key is in the list" (operator `contains`, when `jqlContains` does not panic on
the value); with `p` an `equal` predicate on another field it is the corpus
filtered by "the projected name equals the value" (when every record has that
projected name). -/
theorem Search_single_predicate (f : FakeClient) (jql : GoString) (p : JqlQuery)
    (hp : ParseJQL jql = some ⟨[p]⟩) :
    (p.Key = bytes "id" → p.Operator = opEqual →
      finalCandidates f jql =
        some (f.IssueSearch.filter (fun e => decide (e.ID = p.Value ∨ e.Key = p.Value)))) ∧
    (p.Key = bytes "id" → p.Operator = opContains →
      (∀ l, finalCandidates f jql = some l →
        l = f.IssueSearch.filter (fun e =>
          jqlContains p.Value e.ID == some true || jqlContains p.Value e.Key == some true)) ∧
      ((∀ x, jqlContains p.Value x ≠ none) →
        finalCandidates f jql = some (f.IssueSearch.filter (fun e =>
          jqlContains p.Value e.ID == some true || jqlContains p.Value e.Key == some true)))) ∧
    (p.Key ≠ bytes "id" → p.Operator = opEqual →
      (∀ l, finalCandidates f jql = some l →
        l = f.IssueSearch.filter (fun e => projectedName p.Key e == some p.Value)) ∧
      ((∀ e ∈ f.IssueSearch, projectedName p.Key e ≠ none) →
        finalCandidates f jql =
          some (f.IssueSearch.filter (fun e => projectedName p.Key e == some p.Value)))) := by
  rw [finalCandidates_single f jql p hp]
  have hkey : p.Key ∈ supportedJQLKeys := by
    obtain ⟨c, hc⟩ := ParseJQL_mem jql _ p hp (by simp)
    exact (SplitJQLQuery_ok c p hc).1
  refine ⟨?_, ?_, ?_⟩
  · intro hk ho
    have hm : ∀ e, satisfies p e = decide (e.ID = p.Value ∨ e.Key = p.Value) := by
      intro e
      rw [Bool.eq_iff_iff, satisfies_iff, matchIssue_id_equal p e hk ho]
      simp
    have htot := filterLoopBody_total f.IssueSearch [] p (by
      intro e _
      rw [matchIssue_id_equal p e hk ho]
      simp)
    rw [htot]
    simp only [if_true]
    exact congrArg some (List.filter_congr (fun e _ => hm e))
  · intro hk ho
    have hm : ∀ e, satisfies p e =
        (jqlContains p.Value e.ID == some true || jqlContains p.Value e.Key == some true) := by
      intro e
      rw [Bool.eq_iff_iff, satisfies_iff, matchIssue_id_contains p e hk ho]
      cases hj : jqlContains p.Value e.ID with
      | none =>
        have hj2 := (jqlContains_none_congr p.Value e.ID e.Key).mp hj
        simp [hj2]
      | some a =>
        cases a
        · cases jqlContains p.Value e.Key with
          | none => simp
          | some b => cases b <;> simp
        · simp
    refine ⟨fun l h => single_predicate_some _ l p _ hm h, ?_⟩
    intro hno
    have htot := filterLoopBody_total f.IssueSearch [] p (by
      intro e _
      rw [matchIssue_id_contains p e hk ho]
      cases hj : jqlContains p.Value e.ID with
      | none => exact absurd hj (hno _)
      | some a =>
        cases a
        · simpa using hno e.Key
        · simp)
    rw [htot]
    simp only [if_true]
    exact congrArg some (List.filter_congr (fun e _ => hm e))
  · intro hid ho
    have hm : ∀ e, satisfies p e = (projectedName p.Key e == some p.Value) := by
      intro e
      rw [Bool.eq_iff_iff, satisfies_iff, matchIssue_field_equal p e hkey hid ho]
      cases projectedName p.Key e with
      | none => simp
      | some name => simp
    refine ⟨fun l h => single_predicate_some _ l p _ hm h, ?_⟩
    intro hall
    have htot := filterLoopBody_total f.IssueSearch [] p (by
      intro e he
      simp only [if_true] at he
      rw [matchIssue_field_equal p e hkey hid ho]
      cases hn : projectedName p.Key e with
      | none => exact absurd hn (hall e he)
      | some name => simp)
    rw [htot]
    simp only [if_true]
    exact congrArg some (List.filter_congr (fun e _ => hm e))

theorem Search_single_predicate_witness :
    ParseJQL (bytes "id=PROJ-1") = some ⟨[⟨bytes "id", opEqual, bytes "PROJ-1"⟩]⟩ ∧
    finalCandidates keyedClient (bytes "id=PROJ-1") = some [keyedIssue "123" "PROJ-1"] ∧
    Search keyedClient (bytes "id=PROJ-1") ⟨0, 0⟩ =
      some (⟨some [keyedIssue "123" "PROJ-1"], some ⟨0, 50, 1⟩, none⟩, ⟨0, 50⟩) ∧
    Search keyedClient (bytes "id IN (PROJ-2, 123)") ⟨0, 0⟩ =
      some (⟨some [keyedIssue "123" "PROJ-1", keyedIssue "7" "PROJ-2"], some ⟨0, 50, 2⟩, none⟩,
        ⟨0, 50⟩) ∧
    Search testClient (bytes "project=Test2") ⟨0, 0⟩ =
      some (⟨some [testIssue "1234" "Test2"], some ⟨0, 50, 1⟩, none⟩, ⟨0, 50⟩) :=
  ⟨by decide,
    ((Search_single_predicate keyedClient (bytes "id=PROJ-1")
      ⟨bytes "id", opEqual, bytes "PROJ-1"⟩ (by decide)).1 (by decide) (by decide)).trans
      (by decide),
    by decide, by decide, by decide⟩

/-- The outcome of the search, error text aside, is a function of the
candidate set left after the last predicate and of the options. -/
theorem Search_outcome (f : FakeClient) (jql : GoString) (options : SearchOptions)
    (hf : f.GetIssueError = none) :
    outcome (Search f jql options) = outcomeOf (finalCandidates f jql) options := by
  rcases Search_cases f jql options hf with
    ⟨hc, hs⟩ | ⟨hc, hs⟩ | ⟨l, hl, hc, hm, hs⟩ | ⟨l, hl, hc, hm, hs⟩
  · rw [hs, hc]; rfl
  · rw [hs, hc]; rfl
  · rw [hs, hc]
    have hm2 : ¬ (0 ≤ options.MaxResults) := by omega
    simp [outcome, outcomeOf, hl, hm2]
  · rw [hs, hc]
    simp [outcome, outcomeOf, hl, hm]

/-- After a query that leaves no candidate, the predicates of a second query
joined to it by `&` are evaluated from the full corpus again. -/
theorem finalCandidates_after_empty (f : FakeClient) (q1 q2 : GoString)
    (h : finalCandidates f q1 = some []) :
    finalCandidates f (q1 ++ bytes "&" ++ q2) = finalCandidates f q2 := by
  have hs : q1 ++ bytes "&" ++ q2 = q1 ++ '&'.toNat :: q2 := by
    rw [bytes_amp, amp_toNat]; simp
  rw [finalCandidates_eq] at h
  rw [finalCandidates_eq, finalCandidates_eq, hs, stringsSplit_append]
  unfold parsedClauses filterLoop at *
  rw [List.filterMap_append, List.foldlM_append, h]
  rfl

/-- C19. Restart on an empty candidate set: the step of the evaluator for a
predicate filters the current candidate set when it is non-empty and the full
corpus otherwise (and it does not panic when the body does not panic on the
records it scans); so when the search for `q1` ends in NotFound, the search
for `q1&q2` has the same outcome as the search for `q2` (items, response,
final options, success or NotFound), the text of the error aside. -/
theorem Search_restart_on_empty :
    (∀ (corpus cur next : List Issue) (p : JqlQuery),
      filterLoopBody corpus cur p = some next →
        next = (if cur = [] then corpus else cur).filter (satisfies p)) ∧
    (∀ (corpus cur : List Issue) (p : JqlQuery),
      (∀ e ∈ (if cur = [] then corpus else cur), matchIssue p e ≠ none) →
        filterLoopBody corpus cur p =
          some ((if cur = [] then corpus else cur).filter (satisfies p))) ∧
    (∀ (f : FakeClient) (q1 q2 : GoString) (options : SearchOptions) (r1 : SearchReturn)
      (o1 : SearchOptions) (e : GoError),
      Search f q1 options = some (r1, o1) → r1.err = some e → e.isNotFound = true →
        outcome (Search f (q1 ++ bytes "&" ++ q2) options) =
          outcome (Search f q2 options)) := by
  refine ⟨filterLoopBody_some, filterLoopBody_total, ?_⟩
  intro f q1 q2 options r1 o1 e h herr _
  cases hf : f.GetIssueError with
  | some e2 =>
    rw [Search_of_error f _ options e2 hf, Search_of_error f _ options e2 hf]
  | none =>
    have hc : finalCandidates f q1 = some [] := by
      rcases Search_cases f q1 options hf with
        ⟨_, hs⟩ | ⟨hc, _⟩ | ⟨_, _, _, _, hs⟩ | ⟨_, _, _, _, hs⟩
      · rw [hs] at h; cases h
      · exact hc
      · rw [hs] at h; cases h
      · rw [hs] at h; cases h; cases herr
    rw [Search_outcome f _ options hf, Search_outcome f _ options hf,
      finalCandidates_after_empty f q1 q2 hc]

theorem Search_restart_on_empty_witness :
    Search testClient (bytes "id=999") ⟨0, 0⟩ =
      some (⟨none, none, some (GoError.notFound (notFoundText (bytes "id=999")))⟩, ⟨0, 0⟩) ∧
    Search testClient (bytes "project=Test1") ⟨0, 0⟩ =
      some (⟨some [testIssue "123" "Test1"], some ⟨0, 50, 1⟩, none⟩, ⟨0, 50⟩) ∧
    Search testClient (bytes "id=999" ++ bytes "&" ++ bytes "project=Test1") ⟨0, 0⟩ =
      some (⟨some [testIssue "123" "Test1"], some ⟨0, 50, 1⟩, none⟩, ⟨0, 50⟩) ∧
    outcome (Search testClient (bytes "id=999" ++ bytes "&" ++ bytes "project=Test1") ⟨0, 0⟩) =
      outcome (Search testClient (bytes "project=Test1") ⟨0, 0⟩) :=
  ⟨by decide, by decide, by decide,
    Search_restart_on_empty.2.2 testClient (bytes "id=999") (bytes "project=Test1") ⟨0, 0⟩
      ⟨none, none, some (GoError.notFound (notFoundText (bytes "id=999")))⟩ ⟨0, 0⟩
      (GoError.notFound (notFoundText (bytes "id=999"))) (by decide) rfl rfl⟩

theorem specCandidates_snoc (corpus : List Issue) (ps : List JqlQuery) (p : JqlQuery) :
    specCandidates corpus (ps ++ [p]) = (specCandidates corpus ps).filter (satisfies p) := by
  simp [specCandidates, List.foldl_append]

/-- The outer loop of the search computes the candidate set of the spec when
there is at least one predicate and no predicate but the last leaves the set
empty; it leaves the empty list when there is no predicate. -/
theorem outer_loop_spec (corpus : List Issue) : ∀ (preds : List JqlQuery) (l : List Issue),
    (∀ k, 0 < k → k < preds.length → specCandidates corpus (preds.take k) ≠ []) →
    filterLoop corpus preds = some l →
    l = (if preds = [] then [] else specCandidates corpus preds) := by
  intro preds
  induction preds using List.reverseRecOn with
  | nil =>
    intro l _ h
    simp only [filterLoop, List.foldlM, Option.pure_def, Option.some.injEq] at h
    simp [h]
  | append_singleton ps p ih =>
    intro l hA h
    unfold filterLoop at h
    rw [List.foldlM_append] at h
    cases hcur : List.foldlM (filterLoopBody corpus) [] ps with
    | none => rw [hcur] at h; simp at h
    | some cur =>
      rw [hcur] at h
      simp only [Option.bind_eq_bind, Option.some_bind, List.foldlM_cons, List.foldlM_nil,
        Option.pure_def, Option.bind_some] at h
      have hA2 : ∀ k, 0 < k → k < ps.length → specCandidates corpus (ps.take k) ≠ [] := by
        intro k h0 hk
        have := hA k h0 (by simp; omega)
        rwa [List.take_append_of_le_length (by omega)] at this
      have hcur2 := ih cur hA2 hcur
      have hl := filterLoopBody_some corpus cur l p h
      have hne : ¬ (ps ++ [p] = []) := by simp
      rw [if_neg hne, specCandidates_snoc]
      by_cases hps : ps = []
      · subst hps
        simp only [if_true] at hcur2
        subst hcur2
        simpa [specCandidates] using hl
      · rw [if_neg hps] at hcur2
        have hnon : specCandidates corpus ps ≠ [] := by
          have hlen : 0 < ps.length := List.length_pos.mpr hps
          have := hA ps.length hlen (by simp)
          rwa [List.take_left'] at this
          rfl
        rw [hcur2, if_neg hnon] at hl
        exact hl

/-- The outer loop of the search does not panic when the body of the inner
loop panics on no record of the corpus. -/
theorem outer_loop_total (corpus : List Issue) : ∀ (preds : List JqlQuery) (cur : List Issue),
    (∀ p ∈ preds, ∀ e ∈ corpus, matchIssue p e ≠ none) → cur.Sublist corpus →
    ∃ l, preds.foldlM (filterLoopBody corpus) cur = some l := by
  intro preds
  induction preds with
  | nil => intro cur _ _; exact ⟨cur, rfl⟩
  | cons p ps ih =>
    intro cur hall hsub
    have hscan : ∀ e ∈ (if cur = [] then corpus else cur), matchIssue p e ≠ none := by
      intro e he
      apply hall p (by simp)
      split_ifs at he
      · exact he
      · exact hsub.subset he
    have hstep := filterLoopBody_total corpus cur p hscan
    rw [List.foldlM_cons, hstep]
    simp only [Option.bind_eq_bind, Option.some_bind]
    apply ih _ (fun q hq => hall q (by simp [hq]))
    split_ifs
    · exact List.filter_sublist _
    · exact (List.filter_sublist _).trans hsub

/-- C3, counterexample. On the corpus of `TestClient_Search` the empty query
has no predicate, so the candidate set of the spec is the whole corpus, which
is not empty, and yet the search returns nil items, a nil response and the
NotFound error.  (The query `id=999&project=Test1` fails the other way: the
candidate set of the spec is empty and the search returns a record.) -/
theorem Search_notFound_with_candidates :
    testClient.GetIssueError = none ∧
    ParseJQL (bytes "") = some ⟨[]⟩ ∧
    specCandidates testClient.IssueSearch [] = testIssueList ∧
    specCandidates testClient.IssueSearch [] ≠ [] ∧
    Search testClient (bytes "") ⟨0, 0⟩ =
      some (⟨none, none, some (GoError.notFound (notFoundText (bytes "")))⟩, ⟨0, 0⟩) ∧
    ParseJQL (bytes "id=999&project=Test1") =
      some ⟨[⟨bytes "id", opEqual, bytes "999"⟩, ⟨bytes "project", opEqual, bytes "Test1"⟩]⟩ ∧
    specCandidates testClient.IssueSearch
      [⟨bytes "id", opEqual, bytes "999"⟩, ⟨bytes "project", opEqual, bytes "Test1"⟩] = [] ∧
    Search testClient (bytes "id=999&project=Test1") ⟨0, 0⟩ =
      some (⟨some [testIssue "123" "Test1"], some ⟨0, 50, 1⟩, none⟩, ⟨0, 50⟩) := by
  decide

/-- C3, amended. NotFound exactly when the query has no predicate or nothing
survives: with `GetIssueError` unset and a non-negative window, for a query
whose predicates are `preds`, none of which but the last leaves the candidate
set of the spec empty, the search returns when the body of the loop panics on
no record, and when it returns it returns nil items, a nil response and a
NotFound error if and only if there is no predicate or the candidate set of the
spec (the corpus narrowed by every predicate in turn) is empty; otherwise it
returns without error a non-empty list of items, the first of that set. -/
theorem Search_notFound_iff_no_survivor (f : FakeClient) (jql : GoString)
    (options : SearchOptions) (preds : List JqlQuery)
    (hf : f.GetIssueError = none) (hmax : 0 ≤ options.MaxResults)
    (hp : ParseJQL jql = some ⟨preds⟩)
    (hA : ∀ k, 0 < k → k < preds.length →
      specCandidates f.IssueSearch (preds.take k) ≠ []) :
    ((∀ p ∈ preds, ∀ e ∈ f.IssueSearch, matchIssue p e ≠ none) →
      ∃ r o, Search f jql options = some (r, o)) ∧
    (∀ r o, Search f jql options = some (r, o) →
      ((r.items = none ∧ r.response = none ∧ ∃ e, r.err = some e ∧ e.isNotFound = true) ↔
        (preds = [] ∨ specCandidates f.IssueSearch preds = [])) ∧
      (r.err = none → ∃ items, r.items = some items ∧ items ≠ [] ∧
        items = (specCandidates f.IssueSearch preds).take items.length)) := by
  have hfc : finalCandidates f jql = filterLoop f.IssueSearch preds := by
    simp only [finalCandidates, hp]
    rfl
  constructor
  · intro hall
    obtain ⟨l, hl⟩ := outer_loop_total f.IssueSearch preds [] hall (List.nil_sublist _)
    have hc : finalCandidates f jql = some l := by rw [hfc]; exact hl
    rcases Search_cases f jql options hf with
      ⟨hc2, _⟩ | ⟨_, hs⟩ | ⟨_, _, _, hm, _⟩ | ⟨_, _, _, _, hs⟩
    · rw [hc] at hc2; cases hc2
    · exact ⟨_, _, hs⟩
    · omega
    · exact ⟨_, _, hs⟩
  · intro r o h
    rcases Search_cases f jql options hf with
      ⟨_, hs⟩ | ⟨hc, hs⟩ | ⟨_, _, _, _, hs⟩ | ⟨l, hl, hc, _, hs⟩
    · rw [hs] at h; cases h
    · rw [hs] at h
      cases h
      rw [hfc] at hc
      have hspec := outer_loop_spec f.IssueSearch preds [] hA hc
      refine ⟨⟨fun _ => ?_, fun _ => ⟨rfl, rfl, _, rfl, rfl⟩⟩, fun herr => by cases herr⟩
      by_cases hps : preds = []
      · exact Or.inl hps
      · rw [if_neg hps] at hspec
        exact Or.inr hspec.symm
    · rw [hs] at h; cases h
    · rw [hs] at h
      cases h
      rw [hfc] at hc
      have hspec := outer_loop_spec f.IssueSearch preds l hA hc
      have hps : preds ≠ [] := by
        intro hps
        rw [if_pos hps] at hspec
        exact hl hspec
      rw [if_neg hps] at hspec
      refine ⟨⟨?_, ?_⟩, fun _ => ⟨_, rfl, ?_, ?_⟩⟩
      · rintro ⟨hi, _⟩
        cases hi
      · rintro (h1 | h2)
        · exact absurd h1 hps
        · rw [← hspec] at h2
          exact absurd h2 hl
      · have hpos := effectiveMax_pos options hmax
        cases l with
        | nil => exact absurd rfl hl
        | cons x xs =>
          obtain ⟨k, hk⟩ : ∃ k, (effectiveMax options).toNat = k + 1 :=
            ⟨(effectiveMax options).toNat - 1, by omega⟩
          rw [hk]
          simp
      · rw [← hspec]
        simp only [List.length_take, List.take_eq_take, Nat.min_assoc, Nat.min_self]

theorem Search_notFound_iff_no_survivor_witness :
    testClient.GetIssueError = none ∧ (0 : Int) ≤ (⟨0, 0⟩ : SearchOptions).MaxResults ∧
    ParseJQL (bytes "project=Test1&id=1234") =
      some ⟨[⟨bytes "project", opEqual, bytes "Test1"⟩, ⟨bytes "id", opEqual, bytes "1234"⟩]⟩ ∧
    specCandidates testClient.IssueSearch [⟨bytes "project", opEqual, bytes "Test1"⟩] =
      [testIssue "123" "Test1"] ∧
    specCandidates testClient.IssueSearch
      [⟨bytes "project", opEqual, bytes "Test1"⟩, ⟨bytes "id", opEqual, bytes "1234"⟩] = [] ∧
    Search testClient (bytes "project=Test1&id=1234") ⟨0, 0⟩ =
      some (⟨none, none,
        some (GoError.notFound (notFoundText (bytes "project=Test1&id=1234")))⟩, ⟨0, 0⟩) ∧
    (((∀ p ∈ [(⟨bytes "project", opEqual, bytes "Test1"⟩ : JqlQuery),
          ⟨bytes "id", opEqual, bytes "1234"⟩],
        ∀ e ∈ testClient.IssueSearch, matchIssue p e ≠ none) →
      ∃ r o, Search testClient (bytes "project=Test1&id=1234") ⟨0, 0⟩ = some (r, o)) ∧
    (∀ r o, Search testClient (bytes "project=Test1&id=1234") ⟨0, 0⟩ = some (r, o) →
      ((r.items = none ∧ r.response = none ∧ ∃ e, r.err = some e ∧ e.isNotFound = true) ↔
        (([(⟨bytes "project", opEqual, bytes "Test1"⟩ : JqlQuery),
            ⟨bytes "id", opEqual, bytes "1234"⟩] : List JqlQuery) = [] ∨
          specCandidates testClient.IssueSearch
            [⟨bytes "project", opEqual, bytes "Test1"⟩,
              ⟨bytes "id", opEqual, bytes "1234"⟩] = [])) ∧
      (r.err = none → ∃ items, r.items = some items ∧ items ≠ [] ∧
        items = (specCandidates testClient.IssueSearch
          [⟨bytes "project", opEqual, bytes "Test1"⟩,
            ⟨bytes "id", opEqual, bytes "1234"⟩]).take items.length))) :=
  ⟨by decide, by decide, by decide, by decide, by decide, by decide,
    Search_notFound_iff_no_survivor testClient (bytes "project=Test1&id=1234") ⟨0, 0⟩
      [⟨bytes "project", opEqual, bytes "Test1"⟩, ⟨bytes "id", opEqual, bytes "1234"⟩]
      (by decide) (by decide) (by decide)
      (by
        intro k h0 hk
        have hk1 : k = 1 := by
          have : k < 2 := hk
          omega
        subst hk1
        decide)⟩

end FakeJira
